import Mathlib

/-!
Verification of the storyboard repository (video storyboard generator).

Shallow embedding conventions:
* Python floats are modelled as exact rationals (`ℚ`);
* Python ints are `ℕ` or `ℤ` as the source dictates;
* fallible code returns `Option` / `Except`;
* the mutable `sha1sum` attribute of a `Video` object is modelled by
  explicit state passing.

Sources embedded: `storyboard/util.py`, `storyboard/metadata.py`,
`storyboard/storyboard.py`, `storyboard/frame.py`.
-/

deriving instance DecidableEq for Except

attribute [local semireducible] Rat.mul Rat.inv Rat.add Rat.sub

set_option maxRecDepth 200000

namespace Storyboard

/-! ### util.round_up

Python source (util.py):
  multiplier = 10 ** ndigits
  return math.ceil(number * multiplier) / multiplier
-/

/-- Embedding of util.round_up: round a number upward to ndigits decimals. -/
def round_up (number : ℚ) (ndigits : ℕ) : ℚ :=
  let multiplier : ℚ := 10 ^ ndigits
  (⌈number * multiplier⌉ : ℚ) / multiplier

/-! ### Decimal numerals (Python "%d" formatting of a nonnegative int) -/

/-- The decimal digit character for a digit value (values 9 and above all
map to the character for 9, but the function is only used below 10). -/
def digitChar (n : ℕ) : Char :=
  match n with
  | 0 => '0' | 1 => '1' | 2 => '2' | 3 => '3' | 4 => '4'
  | 5 => '5' | 6 => '6' | 7 => '7' | 8 => '8' | _ => '9'

/-- Fuel-driven digit production, structurally recursive so that the
kernel can evaluate it; the fuel bounds the number of digits. -/
def natToCharsAux (fuel n : ℕ) : List Char :=
  match fuel with
  | 0 => []
  | f + 1 =>
    if n < 10 then [digitChar n]
    else natToCharsAux f (n / 10) ++ [digitChar (n % 10)]

/-- Decimal numeral of a natural number, most significant digit first. -/
def natToChars (n : ℕ) : List Char := natToCharsAux (n + 1) n

/-- String form of a decimal numeral. -/
def natDecStr (n : ℕ) : String := String.mk (natToChars n)

/-- Numeric value of a decimal digit character. -/
def dval (c : Char) : ℕ := c.toNat - 48

/-- Numeric value of a digit string (most significant digit first). -/
def digitsToNat (l : List Char) : ℕ := l.foldl (fun a c => 10 * a + dval c) 0

/-! ### util.evaluate_ratio

Python source (util.py):
  _NUM_COLON_DEN = re.compile(r'^([1-9][0-9]*):([1-9][0-9]*)$')
  _NUM_SLASH_DEN = re.compile(r'^([1-9][0-9]*)/([1-9][0-9]*)$')
  match colon pattern, else slash pattern, returning num/den, else None.
-/

/-- Does the character list match the regex fragment [1-9][0-9]* exactly? -/
def isPosIntStr (l : List Char) : Bool :=
  match l with
  | [] => false
  | c :: cs => c.isDigit && c ≠ '0' && cs.all Char.isDigit

/-- Match a whole character list against ·^([1-9][0-9]*)sep([1-9][0-9]*)$·
for a non-digit separator character: since a digit can never equal the
separator, splitting at the first occurrence of the separator is exactly
the regex match.  Returns the two captured numbers. -/
def matchNumSepNum (sep : Char) (l : List Char) : Option (ℕ × ℕ) :=
  let a := l.takeWhile (fun c => c ≠ sep)
  match l.dropWhile (fun c => c ≠ sep) with
  | _ :: b =>
      if isPosIntStr a && isPosIntStr b then
        some (digitsToNat a, digitsToNat b)
      else none
  | [] => none

/-- Embedding of util.evaluate_ratio: try the colon pattern first, then
the slash pattern; return numerator/denominator or none. -/
def evaluate_ratio (s : String) : Option ℚ :=
  match matchNumSepNum ':' s.data with
  | some (n, d) => some ((n : ℚ) / (d : ℚ))
  | none =>
    match matchNumSepNum '/' s.data with
    | some (n, d) => some ((n : ℚ) / (d : ℚ))
    | none => none

/-! ### Fixed-point decimal formatting (Python "%.df" of an exact value)

Used for values that are exact multiples of 10^-d, where Python float
formatting prints the exact digits.
-/

/-- Render a nonnegative rational that is an integer multiple of 10^-d
with exactly d digits after the decimal point (no point when d = 0),
as Python %.df formatting does for such values. -/
def fmtFixed (q : ℚ) (d : ℕ) : String :=
  let k : ℕ := (⌊q * 10 ^ d⌋).toNat
  if d = 0 then natDecStr k
  else
    natDecStr (k / 10 ^ d) ++ "." ++
      String.mk (List.replicate (d - (natToChars (k % 10 ^ d)).length) '0') ++
      natDecStr (k % 10 ^ d)

/-! ### util.humansize

Python source (util.py):
  multiplier = 1024.0
  if size < multiplier: return "%dB" % size
  for unit in ['Ki', 'Mi', 'Gi', 'Ti', 'Pi', 'Ei', 'Zi']:
      size /= multiplier
      if size < multiplier:
          2 decimals below 10, 1 below 100, 0 otherwise (all round_up)
  else:
      return "%.1f%sB" % (round_up(size, 1), unit)
-/

/-- The in-loop magnitude-banded formatting of util.humansize. -/
def bandFmt (size : ℚ) (unit : String) : String :=
  if size < 10 then fmtFixed (round_up size 2) 2 ++ unit ++ "B"
  else if size < 100 then fmtFixed (round_up size 1) 1 ++ unit ++ "B"
  else fmtFixed (round_up size 0) 0 ++ unit ++ "B"

/-- The unit loop of util.humansize, including the for-else clause that
reuses the last unit when the value is still at least 1024 after the
last division. -/
def hsGo (size : ℚ) : List String → String
  | [] => ("")
  | [unit] =>
      let size' := size / 1024
      if size' < 1024 then bandFmt size' unit
      else fmtFixed (round_up size' 1) 1 ++ unit ++ "B"
  | unit :: rest =>
      let size' := size / 1024
      if size' < 1024 then bandFmt size' unit
      else hsGo size' rest

/-- The binary unit suffixes used by util.humansize. -/
def hsUnits : List String := ["Ki", "Mi", "Gi", "Ti", "Pi", "Ei", "Zi"]

/-- Embedding of util.humansize. -/
def humansize (size : ℕ) : String :=
  if size < 1024 then natDecStr size ++ "B"
  else hsGo (size : ℚ) hsUnits

/-! ### metadata.Video._get_scan_type

Python source (metadata.py): collect ffprobe frame objects until forty
are seen (or the stream ends); with fewer than forty, the scan type is
None; otherwise drop the first twenty objects and sum the
interlaced_frame values of the remaining twenty (a missing key
contributes nothing), then classify.
-/

/-- An ffprobe frame record, reduced to the only key the scan-type
detector reads: the value of interlaced_frame when the key is present. -/
structure FrameRecord where
  interlaced_frame : Option ℕ
deriving DecidableEq

/-- The interlaced-value sum of metadata.Video._get_scan_type. -/
def numInterlaced (frames : List FrameRecord) : ℕ :=
  frames.foldl (fun acc f => acc + f.interlaced_frame.getD 0) 0

/-- Embedding of metadata.Video._get_scan_type, as a function of the
stream of video frame records that ffprobe would report. -/
def get_scan_type (records : List FrameRecord) : Option String :=
  let objs := records.take 40
  if objs.length < 40 then none
  else
    let frames := objs.drop 20
    let n := numInterlaced frames
    if n = 0 then some ("Progressive scan")
    else if n = 20 then some ("Interlaced scan")
    else if n = 8 then some ("Telecined video")
    else some ("Interlaced scan")

/-! ### metadata.Video._process_video_stream: frame rate

Python source (metadata.py):
  if 'r_frame_rate' in sdict:
      s.frame_rate = util.evaluate_ratio(sdict['r_frame_rate'])
  elif 'avg_frame_rate' in sdict:
      s.frame_rate = util.evaluate_ratio(sdict['avg_frame_rate'])
  else:
      s.frame_rate = None
followed by
  if abs(fps - int(fps)) < 0.0001: '%d fps' % int(fps) else "%.2f fps" % fps
-/

/-- The two frame-rate keys of an ffprobe video stream object (absent
key modelled as none). -/
structure VideoStreamDict where
  r_frame_rate : Option String
  avg_frame_rate : Option String
deriving DecidableEq

/-- Embedding of the frame-rate derivation in
metadata.Video._process_video_stream. -/
def stream_frame_rate (sdict : VideoStreamDict) : Option ℚ :=
  match sdict.r_frame_rate with
  | some s => evaluate_ratio s
  | none =>
    match sdict.avg_frame_rate with
    | some s => evaluate_ratio s
    | none => none

/-- Python's int() applied to a rational: truncation toward zero. -/
def pyTrunc (q : ℚ) : ℤ := if q < 0 then ⌈q⌉ else ⌊q⌋

/-- Python "%d" formatting of an integer. -/
def intDecStr (n : ℤ) : String :=
  if n < 0 then ("-") ++ natDecStr n.natAbs else natDecStr n.toNat

/-- Round half to even, the rounding used by Python float formatting. -/
def roundHalfEven (x : ℚ) : ℤ :=
  let f := ⌊x⌋
  let r := x - (f : ℚ)
  if r < 1 / 2 then f
  else if 1 / 2 < r then f + 1
  else if f % 2 = 0 then f else f + 1

/-- Python "%.2f" formatting of a nonnegative value. -/
def pyFmt2 (q : ℚ) : String := fmtFixed ((roundHalfEven (q * 100) : ℚ) / 100) 2

/-- Embedding of the frame-rate text formatting in
metadata.Video._process_video_stream. -/
def frame_rate_text (fps : ℚ) : String :=
  if |fps - (pyTrunc fps : ℚ)| < 1 / 10000 then intDecStr (pyTrunc fps) ++ " fps"
  else pyFmt2 fps ++ " fps"

/-! ### SHA-1 (hashlib.sha1), byte level

metadata.Video._get_sha1sum feeds the file bytes to hashlib.sha1 and
uppercases the hex digest.  The hash itself is the standard SHA-1 of
the full content (chunked reading is observationally the same), so it
is embedded here directly, on lists of bytes, with 32-bit words as
naturals reduced mod 2^32.
-/

/-- Truncation to a 32-bit word. -/
def w32 (n : ℕ) : ℕ := n % 4294967296

/-- Left rotation of a 32-bit word. -/
def rotl (k b : ℕ) : ℕ := w32 ((b <<< k) ||| (b >>> (32 - k)))

/-- Big-endian decomposition of ffprobe words: group bytes in fours. -/
def toWords : List ℕ → List ℕ
  | b0 :: b1 :: b2 :: b3 :: rest =>
      (b0 * 16777216 + b1 * 65536 + b2 * 256 + b3) :: toWords rest
  | _ => []

/-- One step of the SHA-1 message-schedule extension. -/
def extendStep (w : List ℕ) : List ℕ :=
  let t := w.length
  w ++ [rotl 1 ((w.getD (t - 3) 0) ^^^ (w.getD (t - 8) 0) ^^^
                (w.getD (t - 14) 0) ^^^ (w.getD (t - 16) 0))]

/-- Iterated message-schedule extension (16 words extended 64 times). -/
def extendW (w : List ℕ) : ℕ → List ℕ
  | 0 => w
  | k + 1 => extendW (extendStep w) k

/-- One of the eighty SHA-1 rounds; the pair carries (round index, word). -/
def roundStep (st : ℕ × ℕ × ℕ × ℕ × ℕ) (tw : ℕ × ℕ) : ℕ × ℕ × ℕ × ℕ × ℕ :=
  let (t, wt) := tw
  let (a, b, c, d, e) := st
  let f :=
    if t < 20 then (b &&& c) ||| ((4294967295 ^^^ b) &&& d)
    else if t < 40 then b ^^^ c ^^^ d
    else if t < 60 then (b &&& c) ||| (b &&& d) ||| (c &&& d)
    else b ^^^ c ^^^ d
  let k :=
    if t < 20 then 1518500249
    else if t < 40 then 1859775393
    else if t < 60 then 2400959708
    else 3395469782
  (w32 (rotl 5 a + f + e + k + wt), a, rotl 30 b, c, d)

/-- Process one 64-byte chunk, updating the five hash words. -/
def processChunk (h : ℕ × ℕ × ℕ × ℕ × ℕ) (chunk : List ℕ) : ℕ × ℕ × ℕ × ℕ × ℕ :=
  let w := extendW (toWords chunk) 64
  let (a, b, c, d, e) := w.enum.foldl roundStep h
  let (h0, h1, h2, h3, h4) := h
  (w32 (h0 + a), w32 (h1 + b), w32 (h2 + c), w32 (h3 + d), w32 (h4 + e))

/-- SHA-1 padding: 0x80, zeros to 56 mod 64, 64-bit big-endian bit length. -/
def sha1pad (msg : List ℕ) : List ℕ :=
  let l := msg.length
  let bl := (8 * l) % 18446744073709551616
  msg ++ 128 :: List.replicate ((120 - (l + 1) % 64) % 64) 0 ++
    (List.range 8).map (fun i => (bl >>> (8 * (7 - i))) % 256)

/-- Fuel-driven chunk splitting, structurally recursive so that the
kernel can evaluate it; each step consumes at least one element, so a
fuel of the list length suffices. -/
def chunks64Aux (fuel : ℕ) (l : List ℕ) : List (List ℕ) :=
  match fuel, l with
  | 0, _ => []
  | _, [] => []
  | f + 1, x :: xs => (x :: xs).take 64 :: chunks64Aux f ((x :: xs).drop 64)

/-- Split a byte list into 64-byte chunks. -/
def chunks64 (l : List ℕ) : List (List ℕ) := chunks64Aux l.length l

/-- Big-endian bytes of a 32-bit word. -/
def wordBytes (w : ℕ) : List ℕ :=
  [(w >>> 24) % 256, (w >>> 16) % 256, (w >>> 8) % 256, w % 256]

/-- SHA-1 digest (20 bytes) of a byte list. -/
def sha1bytes (msg : List ℕ) : List ℕ :=
  let r := (chunks64 (sha1pad msg)).foldl processChunk
    (1732584193, 4023233417, 2562383102, 271733878, 3285377520)
  match r with
  | (h0, h1, h2, h3, h4) =>
      wordBytes h0 ++ wordBytes h1 ++ wordBytes h2 ++ wordBytes h3 ++ wordBytes h4

/-- Lowercase hex character of a value below sixteen. -/
def hexChar (n : ℕ) : Char :=
  if n < 10 then digitChar n
  else match n with
  | 10 => 'a' | 11 => 'b' | 12 => 'c' | 13 => 'd' | 14 => 'e' | _ => 'f'

/-- Two lowercase hex characters of a byte. -/
def byteHex (b : ℕ) : List Char := [hexChar (b / 16), hexChar (b % 16)]

/-- hashlib hexdigest: lowercase hex string of a byte list. -/
def hexdigest (bytes : List ℕ) : String := String.mk ((bytes.map byteHex).flatten)

/-- Python str.upper restricted to ASCII content. -/
def pyUpper (s : String) : String := String.mk (s.data.map Char.toUpper)

/-- Is the character an uppercase hexadecimal digit? -/
def isUpperHexChar (c : Char) : Bool :=
  c.isDigit || ('A' ≤ c && c ≤ 'F')

/-! ### metadata.Video: lazily cached SHA-1 digest

The sha1sum attribute is the single piece of state the claim is about;
__init__ sets it to None, _get_sha1sum fills it on first request and
returns the cached value afterwards.  compute_sha1sum and
format_metadata (with include_sha1sum) both route through _get_sha1sum.
-/

/-- The sha1sum attribute of a Video object. -/
structure VideoSt where
  sha1sum : Option String
deriving DecidableEq

/-- The state of the sha1sum attribute right after Video.__init__
(self.sha1sum = None). -/
def video_init : VideoSt := ⟨none⟩

/-- Embedding of metadata.Video._get_sha1sum: return the cached digest
if present, otherwise hash the file content, uppercase and cache it. -/
def get_sha1sum (content : List ℕ) (v : VideoSt) : String × VideoSt :=
  match v.sha1sum with
  | some s => (s, v)
  | none =>
      let s := pyUpper (hexdigest (sha1bytes content))
      (s, ⟨some s⟩)

/-- Embedding of metadata.Video.compute_sha1sum (a wrapper around
_get_sha1sum). -/
def compute_sha1sum (content : List ℕ) (v : VideoSt) : String × VideoSt :=
  get_sha1sum content v

/-- Embedding of the sha1sum-relevant effect of
metadata.Video.format_metadata: with include_sha1sum the digest is
requested (and hence computed and cached) and printed, otherwise the
state is untouched and no digest line is produced. -/
def format_metadata_sha1 (include_sha1sum : Bool) (content : List ℕ)
    (v : VideoSt) : Option String × VideoSt :=
  if include_sha1sum then
    let r := get_sha1sum content v
    (some r.1, r.2)
  else (none, v)

/-! ### storyboard.tile_images

Python source (storyboard.py): check len(images) == cols*rows; with a
tile_size parameter compute the canvas size directly and resize every
image; without it, check column-width and row-height consistency
(raising ValueError naming the offending image against its reference)
while accumulating the canvas size; then paste the images row-major.
List indexing out of range raises IndexError, kept as a distinct error.
Only the image sizes matter to the embedded result: an image is its
(width, height) pair, and the composite is its canvas size together
with the sizes of the pasted tiles in paste order.
-/

/-- An image reduced to its size: (width, height). -/
abbrev Img : Type := ℤ × ℤ

/-- The errors tile_images can raise.  The two ValueError cases record
the numbers interpolated into the message: offending flat index, its
row, column and size, and the reference index and size. -/
inductive TileError : Type
  | dimensionMismatch (len cols rows : ℕ)
  | inconsistentWidth (index row col : ℕ) (w h : ℤ) (refIndex : ℕ) (refW refH : ℤ)
  | inconsistentHeight (index row col : ℕ) (w h : ℤ) (refIndex : ℕ) (refW refH : ℤ)
  | indexError
deriving DecidableEq

/-- Python list indexing: the element, or IndexError when out of range. -/
def getImg (images : List Img) (i : ℕ) : Except TileError Img :=
  match images[i]? with
  | some im => Except.ok im
  | none => Except.error TileError.indexError

/-- Inner loop of the column-width consistency check: compare rows
1..rows-1 of one column against the row-0 reference. -/
def checkWidthCol (images : List Img) (cols col : ℕ) (refW refH : ℤ) :
    List ℕ → Except TileError Unit
  | [] => Except.ok ()
  | row :: rest =>
    match getImg images (row * cols + col) with
    | Except.error e => Except.error e
    | Except.ok (w, h) =>
      if w ≠ refW then
        Except.error (TileError.inconsistentWidth (row * cols + col) row col
          w h col refW refH)
      else checkWidthCol images cols col refW refH rest

/-- Outer loop of the column-width check, accumulating the sum of the
per-column reference widths. -/
def checkWidthCols (images : List Img) (cols rows : ℕ) (acc : ℤ) :
    List ℕ → Except TileError ℤ
  | [] => Except.ok acc
  | col :: rest =>
    match getImg images col with
    | Except.error e => Except.error e
    | Except.ok (refW, refH) =>
      match checkWidthCol images cols col refW refH (List.range' 1 (rows - 1)) with
      | Except.error e => Except.error e
      | Except.ok () => checkWidthCols images cols rows (acc + refW) rest

/-- Inner loop of the row-height consistency check: compare columns
1..cols-1 of one row against the column-0 reference. -/
def checkHeightRow (images : List Img) (cols row : ℕ) (refW refH : ℤ) :
    List ℕ → Except TileError Unit
  | [] => Except.ok ()
  | col :: rest =>
    match getImg images (row * cols + col) with
    | Except.error e => Except.error e
    | Except.ok (w, h) =>
      if h ≠ refH then
        Except.error (TileError.inconsistentHeight (row * cols + col) row col
          w h (row * cols) refW refH)
      else checkHeightRow images cols row refW refH rest

/-- Outer loop of the row-height check, accumulating the sum of the
per-row reference heights. -/
def checkHeightRows (images : List Img) (cols rows : ℕ) (acc : ℤ) :
    List ℕ → Except TileError ℤ
  | [] => Except.ok acc
  | row :: rest =>
    match getImg images (row * cols) with
    | Except.error e => Except.error e
    | Except.ok (refW, refH) =>
      match checkHeightRow images cols row refW refH (List.range' 1 (cols - 1)) with
      | Except.error e => Except.error e
      | Except.ok () => checkHeightRows images cols rows (acc + refH) rest

/-- Inner paste loop over one row: every image is pasted at its own size
or, when resizeTo is set, at the forced tile size. -/
def pasteCols (images : List Img) (cols row : ℕ) (resizeTo : Option Img) :
    List ℕ → Except TileError (List Img)
  | [] => Except.ok []
  | col :: rest =>
    match getImg images (row * cols + col) with
    | Except.error e => Except.error e
    | Except.ok img =>
      match pasteCols images cols row resizeTo rest with
      | Except.error e => Except.error e
      | Except.ok ps => Except.ok (resizeTo.getD img :: ps)

/-- Outer paste loop: after each row the code reads the row's first
image again to advance the vertical offset, which is kept here because
it can raise IndexError on degenerate grids. -/
def pasteRows (images : List Img) (cols : ℕ) (resizeTo : Option Img) :
    List ℕ → Except TileError (List Img)
  | [] => Except.ok []
  | row :: rest =>
    match pasteCols images cols row resizeTo (List.range cols) with
    | Except.error e => Except.error e
    | Except.ok ps =>
      match getImg images (row * cols) with
      | Except.error e => Except.error e
      | Except.ok _ =>
        match pasteRows images cols resizeTo rest with
        | Except.error e => Except.error e
        | Except.ok rest' => Except.ok (ps ++ rest')

/-- The optional parameters of tile_images that affect geometry. -/
structure TileParams where
  tile_size : Option Img := none
  tile_spacing : ℤ × ℤ := (0, 0)
  margins : ℤ × ℤ := (0, 0)

/-- The embedded result of tile_images: the canvas size and the sizes
of the pasted tiles in paste order. -/
structure TileResult where
  canvas : ℤ × ℤ
  pasted : List Img
deriving DecidableEq

/-- Embedding of storyboard.tile_images. -/
def tile_images (images : List Img) (tile : ℕ × ℕ) (params : TileParams) :
    Except TileError TileResult :=
  let (cols, rows) := tile
  if images.length ≠ cols * rows then
    Except.error (TileError.dimensionMismatch images.length cols rows)
  else
    let (hs, vs) := params.tile_spacing
    let (hm, vm) := params.margins
    match params.tile_size with
    | some (tw, th) =>
      let cw := tw * cols + hs * ((cols : ℤ) - 1) + hm * 2
      let ch := th * rows + vs * ((rows : ℤ) - 1) + vm * 2
      match pasteRows images cols (some (tw, th)) (List.range rows) with
      | Except.error e => Except.error e
      | Except.ok ps => Except.ok ⟨(cw, ch), ps⟩
    | none =>
      match checkWidthCols images cols rows 0 (List.range cols) with
      | Except.error e => Except.error e
      | Except.ok sumW =>
        match checkHeightRows images cols rows 0 (List.range rows) with
        | Except.error e => Except.error e
        | Except.ok sumH =>
          let cw := sumW + hs * ((cols : ℤ) - 1) + hm * 2
          let ch := sumH + vs * ((rows : ℤ) - 1) + vm * 2
          match pasteRows images cols none (List.range rows) with
          | Except.error e => Except.error e
          | Except.ok ps => Except.ok ⟨(cw, ch), ps⟩

/-! ### storyboard.StoryBoard.gen_frames

Python source (storyboard.py): if len(self.frames) == count return;
otherwise compute timestamps interval*(i + 1/2) for i in range(count)
with interval = duration/count, and append one extracted frame per
timestamp; a failed extraction propagates, leaving the frames appended
so far in place.  frame.extract_frame returns Frame(timestamp, image),
so extraction is modelled as an oracle from timestamps to images.
-/

/-- frame.Frame: a timestamp together with an (abstracted) image. -/
structure SFrame where
  timestamp : ℚ
  image : ℕ
deriving DecidableEq

/-- The extraction loop of gen_frames: append one frame per timestamp;
on a failed extraction the frames appended so far are kept (the state
at the moment the exception propagates). -/
def extractLoop (extract : ℚ → Option ℕ) :
    List ℚ → List SFrame → Except (List SFrame) (List SFrame)
  | [], frames => Except.ok frames
  | t :: ts, frames =>
    match extract t with
    | some img => extractLoop extract ts (frames ++ [⟨t, img⟩])
    | none => Except.error frames

/-- Embedding of storyboard.StoryBoard.gen_frames, with the frames list
passed as explicit state and the returned list as the new state (the
error value carries the partially extended state). -/
def gen_frames (extract : ℚ → Option ℕ) (duration : ℚ) (count : ℕ)
    (frames : List SFrame) : Except (List SFrame) (List SFrame) :=
  if frames.length = count then Except.ok frames
  else
    let interval := duration / (count : ℚ)
    let timestamps := (List.range count).map (fun (i : ℕ) => interval * ((i : ℚ) + 1 / 2))
    extractLoop extract timestamps frames

/-! ## Theorems -/

/-- C6: for every number x and every nonnegative integer d, round_up(x, d)
is at least x, is a value representable with d decimal places, is the
smallest such value that is at least x, and is idempotent. -/
theorem round_up_spec (x : ℚ) (d : ℕ) :
    x ≤ round_up x d ∧
    (∃ k : ℤ, round_up x d = (k : ℚ) / 10 ^ d) ∧
    (∀ y : ℚ, (∃ k : ℤ, y = (k : ℚ) / 10 ^ d) → x ≤ y → round_up x d ≤ y) ∧
    round_up (round_up x d) d = round_up x d := by
  have hm : (0 : ℚ) < 10 ^ d := by positivity
  refine ⟨?_, ⟨⌈x * 10 ^ d⌉, rfl⟩, ?_, ?_⟩
  · rw [round_up, le_div_iff₀ hm]
    exact Int.le_ceil (x * 10 ^ d)
  · rintro y ⟨k, rfl⟩ hxy
    rw [le_div_iff₀ hm] at hxy
    have hck : (⌈x * 10 ^ d⌉ : ℚ) ≤ (k : ℚ) := by exact_mod_cast Int.ceil_le.mpr hxy
    rw [round_up]
    gcongr
  · rw [round_up, round_up, div_mul_cancel₀ _ (ne_of_gt hm), Int.ceil_intCast]

/-- Witness for round_up_spec at x = 1/3, d = 2, y = 34/100. -/
theorem round_up_spec_witness : round_up (1 / 3 : ℚ) 2 ≤ 34 / 100 :=
  (round_up_spec (1 / 3) 2).2.2.1 (34 / 100) ⟨34, by norm_num⟩ (by norm_num)

/-! ### Lemmas on the regex-split helpers -/

theorem takeWhile_split (p : Char → Bool) (a : List Char) (x : Char)
    (b : List Char) (ha : ∀ c ∈ a, p c = true) (hx : p x = false) :
    (a ++ x :: b).takeWhile p = a ∧ (a ++ x :: b).dropWhile p = x :: b := by
  induction a with
  | nil => simp [List.takeWhile, List.dropWhile, hx]
  | cons c cs ih =>
    have hc : p c = true := ha c (List.mem_cons_self c cs)
    have ih' := ih (fun c' hc' => ha c' (List.mem_cons_of_mem c hc'))
    simp [List.takeWhile, List.dropWhile, hc, ih'.1, ih'.2]

theorem dropWhile_head_false {p : Char → Bool} {l : List Char} {x : Char}
    {xs : List Char} (h : l.dropWhile p = x :: xs) : p x = false := by
  induction l with
  | nil => simp [List.dropWhile] at h
  | cons c cs ih =>
    rw [List.dropWhile] at h
    by_cases hc : p c
    · rw [hc] at h
      simp at h
      exact ih h
    · simp [hc] at h
      rw [← h.1]
      simpa using hc

theorem isPosIntStr_digits {l : List Char} (h : isPosIntStr l = true) :
    ∀ c ∈ l, c.isDigit = true := by
  match l with
  | [] => simp [isPosIntStr] at h
  | c :: cs =>
    simp [isPosIntStr, Bool.and_assoc] at h
    intro x hx
    rcases List.mem_cons.mp hx with h1 | h2
    · exact h1 ▸ h.1
    · exact h.2.2 x h2

theorem matchNumSepNum_drop (sep : Char) (l b : List Char)
    (hd : l.dropWhile (fun c => c ≠ sep) = sep :: b) :
    matchNumSepNum sep l =
      (if isPosIntStr (l.takeWhile (fun c => c ≠ sep)) && isPosIntStr b
       then some (digitsToNat (l.takeWhile (fun c => c ≠ sep)), digitsToNat b)
       else none) := by
  rw [matchNumSepNum, hd]

theorem matchNumSepNum_some_iff {sep : Char} (hsep : sep.isDigit = false)
    (l : List Char) (n d : ℕ) :
    matchNumSepNum sep l = some (n, d) ↔
      ∃ a b, l = a ++ sep :: b ∧ isPosIntStr a = true ∧ isPosIntStr b = true ∧
        n = digitsToNat a ∧ d = digitsToNat b := by
  constructor
  · intro h
    rcases hd : l.dropWhile (fun c => c ≠ sep) with _ | ⟨x, b⟩
    · rw [matchNumSepNum, hd] at h
      simp at h
    · have hxsep : x = sep := by simpa using (dropWhile_head_false hd)
      rw [hxsep] at hd
      rw [matchNumSepNum_drop sep l b hd] at h
      by_cases hA : isPosIntStr (l.takeWhile (fun c => c ≠ sep)) = true
      · by_cases hB : isPosIntStr b = true
        · rw [if_pos (by rw [hA, hB]; rfl)] at h
          simp only [Option.some.injEq, Prod.mk.injEq] at h
          exact ⟨l.takeWhile (fun c => c ≠ sep), b,
            by rw [← hd, List.takeWhile_append_dropWhile], hA, hB,
            h.1.symm, h.2.symm⟩
        · rw [if_neg (by rw [Bool.and_eq_true]; exact fun hco => hB hco.2)] at h
          simp at h
      · rw [if_neg (by rw [Bool.and_eq_true]; exact fun hco => hA hco.1)] at h
        simp at h
  · rintro ⟨a, b, rfl, hA, hB, rfl, rfl⟩
    have hsepa : ∀ c ∈ a, (c ≠ sep : Bool) = true := by
      intro c hc
      have : c.isDigit = true := isPosIntStr_digits hA c hc
      simp
      intro he
      rw [he] at this
      rw [this] at hsep
      exact Bool.true_eq_false.mp hsep
    have hsepx : (sep ≠ sep : Bool) = false := by simp
    have hsplit := takeWhile_split (fun c => c ≠ sep) a sep b hsepa hsepx
    rw [matchNumSepNum_drop sep (a ++ sep :: b) b hsplit.2, hsplit.1,
      if_pos (by rw [hA, hB]; rfl)]

theorem matchNumSepNum_none {sep : Char} (l : List Char)
    (h : ∀ c ∈ l, (c ≠ sep : Bool) = true) : matchNumSepNum sep l = none := by
  rw [matchNumSepNum, List.dropWhile_eq_nil_iff.mpr (by simpa using h)]

/-! ### Lemmas on decimal numerals -/

theorem digitChar_isDigit {k : ℕ} (hk : k < 10) :
    (digitChar k).isDigit = true := by
  interval_cases k <;> decide

theorem dval_digitChar {k : ℕ} (hk : k < 10) : dval (digitChar k) = k := by
  interval_cases k <;> decide

theorem digitChar_ne_zero {k : ℕ} (hk : 1 ≤ k) (hk10 : k < 10) :
    (digitChar k ≠ '0' : Bool) = true := by
  interval_cases k <;> decide

theorem digitsToNat_append (a : List Char) (c : Char) :
    digitsToNat (a ++ [c]) = 10 * digitsToNat a + dval c := by
  rw [digitsToNat, digitsToNat, List.foldl_append]
  rfl

theorem natToCharsAux_ne_nil {f n : ℕ} (hf : 0 < f) : natToCharsAux f n ≠ [] := by
  match f with
  | g + 1 =>
    rw [natToCharsAux]
    by_cases h : n < 10 <;> simp [h]

theorem natToCharsAux_digits {f : ℕ} : ∀ {n : ℕ}, n < 10 ^ f →
    ∀ c ∈ natToCharsAux f n, c.isDigit = true := by
  induction f with
  | zero => intro n hn c hc; rw [natToCharsAux] at hc; simp at hc
  | succ g ih =>
    intro n hn c hc
    rw [natToCharsAux] at hc
    by_cases h : n < 10
    · rw [if_pos h] at hc
      simp at hc
      exact hc ▸ digitChar_isDigit h
    · rw [if_neg h] at hc
      rcases List.mem_append.mp hc with h1 | h2
      · have hdiv : n / 10 < 10 ^ g := by
          rw [Nat.div_lt_iff_lt_mul (by norm_num)]
          calc n < 10 ^ (g + 1) := hn
          _ = 10 ^ g * 10 := by ring
        exact ih hdiv c h1
      · simp at h2
        exact h2 ▸ digitChar_isDigit (Nat.mod_lt n (by norm_num))

theorem natToCharsAux_head {f : ℕ} : ∀ {n : ℕ}, n < 10 ^ f → 1 ≤ n →
    ∀ c cs, natToCharsAux f n = c :: cs → (c ≠ '0' : Bool) = true := by
  induction f with
  | zero => intro n hn; omega
  | succ g ih =>
    intro n hn hn1 c cs hc
    rw [natToCharsAux] at hc
    by_cases h : n < 10
    · rw [if_pos h] at hc
      simp at hc
      exact hc.1 ▸ digitChar_ne_zero hn1 h
    · rw [if_neg h] at hc
      have hdiv : n / 10 < 10 ^ g := by
        rw [Nat.div_lt_iff_lt_mul (by norm_num)]
        calc n < 10 ^ (g + 1) := hn
        _ = 10 ^ g * 10 := by ring
      have hdiv1 : 1 ≤ n / 10 := by
        rw [Nat.le_div_iff_mul_le (by norm_num)]
        omega
      have hg : 0 < g := by
        by_contra hg0
        have : g = 0 := by omega
        rw [this] at hdiv
        omega
      rcases he : natToCharsAux g (n / 10) with _ | ⟨c', cs'⟩
      · exact absurd he (natToCharsAux_ne_nil hg)
      · rw [he] at hc
        simp at hc
        exact hc.1 ▸ ih hdiv hdiv1 c' cs' he

theorem natToCharsAux_val {f : ℕ} : ∀ {n : ℕ}, n < 10 ^ f →
    digitsToNat (natToCharsAux f n) = n := by
  induction f with
  | zero =>
    intro n hn
    have hn0 : n = 0 := by omega
    subst hn0
    rfl
  | succ g ih =>
    intro n hn
    rw [natToCharsAux]
    by_cases h : n < 10
    · rw [if_pos h]
      have : digitsToNat [digitChar n] = dval (digitChar n) := by
        rw [digitsToNat]
        simp [List.foldl]
      rw [this, dval_digitChar h]
    · rw [if_neg h]
      have hdiv : n / 10 < 10 ^ g := by
        rw [Nat.div_lt_iff_lt_mul (by norm_num)]
        calc n < 10 ^ (g + 1) := hn
        _ = 10 ^ g * 10 := by ring
      rw [digitsToNat_append, ih hdiv, dval_digitChar (Nat.mod_lt n (by norm_num))]
      omega

theorem lt_ten_pow_succ (n : ℕ) : n < 10 ^ (n + 1) := by
  calc n < n + 1 := by omega
  _ ≤ 10 ^ (n + 1) := by
    calc n + 1 ≤ 2 ^ (n + 1) := le_of_lt (Nat.lt_two_pow (n + 1))
    _ ≤ 10 ^ (n + 1) := Nat.pow_le_pow_left (by norm_num) (n + 1)

theorem natToChars_isPosIntStr {n : ℕ} (hn : 1 ≤ n) :
    isPosIntStr (natToChars n) = true := by
  have hf := lt_ten_pow_succ n
  rcases he : natToChars n with _ | ⟨c, cs⟩
  · exact absurd he (natToCharsAux_ne_nil (by omega))
  · rw [isPosIntStr]
    have hd := natToCharsAux_digits hf
    rw [natToChars] at he
    rw [he] at hd
    have h1 : c.isDigit = true := hd c (List.mem_cons_self c cs)
    have h2 := natToCharsAux_head hf hn c cs he
    have h3 : cs.all Char.isDigit = true :=
      List.all_eq_true.mpr (fun x hx => hd x (List.mem_cons_of_mem c hx))
    rw [h1, h2, h3]
    rfl

theorem natToChars_val (n : ℕ) : digitsToNat (natToChars n) = n :=
  natToCharsAux_val (lt_ten_pow_succ n)

theorem no_colon_in_slash_form {a b : List Char} (hA : isPosIntStr a = true)
    (hB : isPosIntStr b = true) :
    ∀ c ∈ a ++ '/' :: b, (c ≠ ':' : Bool) = true := by
  intro c hc
  simp only [List.mem_append, List.mem_cons] at hc
  have hdig : c.isDigit = true ∨ c = '/' := by
    rcases hc with h1 | h2 | h3
    · exact Or.inl (isPosIntStr_digits hA c h1)
    · exact Or.inr h2
    · exact Or.inl (isPosIntStr_digits hB c h3)
  simp only [ne_eq, decide_eq_true_eq]
  rintro rfl
  rcases hdig with h | h
  · exact absurd h (by decide)
  · exact absurd h (by decide)

/-- C5: evaluate_ratio returns numerator/denominator exactly when the
input matches the anchored regex (a positive-integer numerator, a colon
or slash, a positive-integer denominator, with no leading zeros), and
none otherwise; for all positive n and d the decimal strings n:d and
n/d evaluate to n/d; and the degenerate inputs 0:1, 1:0 and 0:0 all
yield none. -/
theorem evaluate_ratio_spec (s : String) (n d : ℕ) (hn : 1 ≤ n) (hd : 1 ≤ d) :
    (∀ q : ℚ, evaluate_ratio s = some q ↔
      ∃ sep a b, s.data = a ++ sep :: b ∧ (sep = ':' ∨ sep = '/') ∧
        isPosIntStr a = true ∧ isPosIntStr b = true ∧
        q = (digitsToNat a : ℚ) / (digitsToNat b : ℚ)) ∧
    evaluate_ratio (String.mk (natToChars n ++ ':' :: natToChars d)) =
      some ((n : ℚ) / (d : ℚ)) ∧
    evaluate_ratio (String.mk (natToChars n ++ '/' :: natToChars d)) =
      some ((n : ℚ) / (d : ℚ)) ∧
    evaluate_ratio (String.mk ['0', ':', '1']) = none ∧
    evaluate_ratio (String.mk ['1', ':', '0']) = none ∧
    evaluate_ratio (String.mk ['0', ':', '0']) = none := by
  refine ⟨?_, ?_, ?_, by decide, by decide, by decide⟩
  · intro q
    constructor
    · intro h
      rw [evaluate_ratio] at h
      rcases hcolon : matchNumSepNum ':' s.data with _ | ⟨nc, dc⟩
      · rw [hcolon] at h
        rcases hslash : matchNumSepNum '/' s.data with _ | ⟨ns, ds⟩
        · rw [hslash] at h
          simp at h
        · rw [hslash] at h
          simp only [Option.some.injEq] at h
          obtain ⟨a, b, hsd, hA, hB, hnv, hdv⟩ :=
            (matchNumSepNum_some_iff (by decide) s.data ns ds).mp hslash
          exact ⟨'/', a, b, hsd, Or.inr rfl, hA, hB, by rw [← h, hnv, hdv]⟩
      · rw [hcolon] at h
        simp only [Option.some.injEq] at h
        obtain ⟨a, b, hsd, hA, hB, hnv, hdv⟩ :=
          (matchNumSepNum_some_iff (by decide) s.data nc dc).mp hcolon
        exact ⟨':', a, b, hsd, Or.inl rfl, hA, hB, by rw [← h, hnv, hdv]⟩
    · rintro ⟨sep, a, b, hsd, hsep, hA, hB, rfl⟩
      rcases hsep with rfl | rfl
      · rw [evaluate_ratio,
          (matchNumSepNum_some_iff (by decide) s.data (digitsToNat a)
            (digitsToNat b)).mpr ⟨a, b, hsd, hA, hB, rfl, rfl⟩]
      · have hnone : matchNumSepNum ':' s.data = none := by
          rw [hsd]
          exact matchNumSepNum_none _ (no_colon_in_slash_form hA hB)
        rw [evaluate_ratio, hnone,
          (matchNumSepNum_some_iff (by decide) s.data (digitsToNat a)
            (digitsToNat b)).mpr ⟨a, b, hsd, hA, hB, rfl, rfl⟩]
  · rw [evaluate_ratio]
    have h := (matchNumSepNum_some_iff (by decide)
      (natToChars n ++ ':' :: natToChars d) n d).mpr
      ⟨natToChars n, natToChars d, rfl, natToChars_isPosIntStr hn,
        natToChars_isPosIntStr hd, (natToChars_val n).symm, (natToChars_val d).symm⟩
    rw [show (String.mk (natToChars n ++ ':' :: natToChars d)).data =
      natToChars n ++ ':' :: natToChars d from rfl, h]
  · rw [evaluate_ratio]
    have hnone : matchNumSepNum ':' (natToChars n ++ '/' :: natToChars d) = none :=
      matchNumSepNum_none _
        (no_colon_in_slash_form (natToChars_isPosIntStr hn) (natToChars_isPosIntStr hd))
    have h := (matchNumSepNum_some_iff (by decide)
      (natToChars n ++ '/' :: natToChars d) n d).mpr
      ⟨natToChars n, natToChars d, rfl, natToChars_isPosIntStr hn,
        natToChars_isPosIntStr hd, (natToChars_val n).symm, (natToChars_val d).symm⟩
    rw [show (String.mk (natToChars n ++ '/' :: natToChars d)).data =
      natToChars n ++ '/' :: natToChars d from rfl, hnone, h]

/-- Witness for evaluate_ratio_spec at the concrete numerals 16 and 9. -/
theorem evaluate_ratio_spec_witness :
    evaluate_ratio (String.mk ['1', '6', ':', '9']) = some ((16 : ℚ) / 9) := by
  have h := (evaluate_ratio_spec (String.mk ['1', '6', ':', '9']) 16 9
    (by norm_num) (by norm_num)).2.1
  have e : String.mk (natToChars 16 ++ ':' :: natToChars 9) =
      String.mk ['1', '6', ':', '9'] := by decide
  rw [e] at h
  exact h

/-! ### Scan-type classification -/

theorem numInterlaced_foldl (l : List FrameRecord) :
    ∀ a : ℕ, (∀ r ∈ l, r.interlaced_frame = none ∨ r.interlaced_frame = some 0 ∨
      r.interlaced_frame = some 1) →
    l.foldl (fun acc f => acc + f.interlaced_frame.getD 0) a =
      a + l.countP (fun r => decide (r.interlaced_frame = some 1)) := by
  induction l with
  | nil => intro a _; simp
  | cons r l ih =>
    intro a h
    have hr := h r (List.mem_cons_self r l)
    have hrest := fun x hx => h x (List.mem_cons_of_mem r hx)
    rw [List.foldl_cons, ih _ hrest, List.countP_cons]
    rcases hr with h0 | h0 | h0 <;> rw [h0] <;> simp <;> omega

/-- C1: with fewer than forty video frame records the scan type is
unresolved (none); with at least forty, letting n be the number of
interlaced-flagged frames among records 20..39 of the first forty, the
scan type is Progressive scan for n = 0, Interlaced scan for n = 20,
Telecined video for n = 8, and Interlaced scan for every other n. -/
theorem scan_type_spec (records : List FrameRecord)
    (h : ∀ r ∈ records, r.interlaced_frame = none ∨ r.interlaced_frame = some 0 ∨
      r.interlaced_frame = some 1) :
    (records.length < 40 → get_scan_type records = none) ∧
    (40 ≤ records.length →
      get_scan_type records =
        (let n := ((records.take 40).drop 20).countP
            (fun r => decide (r.interlaced_frame = some 1))
         if n = 0 then some ("Progressive scan")
         else if n = 20 then some ("Interlaced scan")
         else if n = 8 then some ("Telecined video")
         else some ("Interlaced scan"))) := by
  constructor
  · intro hlt
    rw [get_scan_type]
    simp only [List.length_take]
    rw [if_pos (by omega)]
  · intro hge
    rw [get_scan_type]
    simp only [List.length_take]
    rw [if_neg (by omega)]
    have hsub : ∀ r ∈ (records.take 40).drop 20, r.interlaced_frame = none ∨
        r.interlaced_frame = some 0 ∨ r.interlaced_frame = some 1 :=
      fun r hr => h r (List.take_subset 40 records (List.drop_subset 20 _ hr))
    have hnum := numInterlaced_foldl ((records.take 40).drop 20) 0 hsub
    rw [numInterlaced, hnum]
    simp only [Nat.zero_add]

/-- Witness for scan_type_spec: forty frames all flagged interlaced are
classified as Interlaced scan. -/
theorem scan_type_spec_witness :
    get_scan_type (List.replicate 40 ⟨some 1⟩) = some ("Interlaced scan") := by
  have h := (scan_type_spec (List.replicate 40 ⟨some 1⟩)
    (by
      intro r hr
      right; right
      rw [List.eq_of_mem_replicate hr])).2 (by decide)
  rw [h]
  decide

/-! ### Frame-rate derivation and formatting -/

/-- C2 counterexample: a stream whose real frame-rate field is present
but unparseable (0/0) while the average field parses (25/1) gets a None
frame rate; the average field is never consulted, contradicting the
claimed fallback and the claimed none-iff-neither-parses condition. -/
theorem stream_frame_rate_cex :
    stream_frame_rate ⟨some (String.mk ['0', '/', '0']),
      some (String.mk ['2', '5', '/', '1'])⟩ = none ∧
    evaluate_ratio (String.mk ['2', '5', '/', '1']) = some ((25 : ℚ)) := by
  constructor
  · decide
  · decide

/-- C2 amended: the average frame-rate field is consulted only when the
real frame-rate field is absent; whichever field is consulted is passed
through evaluate_ratio (so an unparseable consulted field yields none
even if the other field parses), and the rate is none when both are
absent. -/
theorem stream_frame_rate_amended (sdict : VideoStreamDict) :
    (∀ s, sdict.r_frame_rate = some s → stream_frame_rate sdict = evaluate_ratio s) ∧
    (sdict.r_frame_rate = none →
      ∀ s, sdict.avg_frame_rate = some s → stream_frame_rate sdict = evaluate_ratio s) ∧
    (sdict.r_frame_rate = none → sdict.avg_frame_rate = none →
      stream_frame_rate sdict = none) := by
  obtain ⟨r, a⟩ := sdict
  refine ⟨?_, ?_, ?_⟩
  · rintro s rfl
    rfl
  · rintro rfl s rfl
    rfl
  · rintro rfl rfl
    rfl

/-- Witness for stream_frame_rate_amended: a present real field is the
one evaluated. -/
theorem stream_frame_rate_amended_witness :
    stream_frame_rate ⟨some (String.mk ['3', '0', '/', '1']),
      some (String.mk ['2', '5', '/', '1'])⟩ =
      evaluate_ratio (String.mk ['3', '0', '/', '1']) :=
  (stream_frame_rate_amended _).1 _ rfl

/-- C3 counterexample: 24.99995 is within 1e-4 of the integer 25, yet
frame_rate_text renders it with two decimals, because the code compares
against the truncation int(fps) = 24, not the nearest integer. -/
theorem frame_rate_text_cex :
    frame_rate_text (4999999 / 200000 : ℚ) =
      String.mk ['2', '5', '.', '0', '0', ' ', 'f', 'p', 's'] ∧
    |(4999999 / 200000 : ℚ) - 25| < 1 / 10000 := by
  constructor
  · decide
  · rw [abs_sub_lt_iff]
    norm_num

/-- C3 amended: for a positive rate, integer formatting is used exactly
when the rate is within 1e-4 of its integer part rounded toward zero
(its floor), i.e. lies within 1e-4 at or above an integer; otherwise
two-decimal formatting is used. -/
theorem frame_rate_text_amended (fps : ℚ) (hpos : 0 < fps) :
    (fps - (⌊fps⌋ : ℚ) < 1 / 10000 →
      frame_rate_text fps = intDecStr ⌊fps⌋ ++ (" fps")) ∧
    (1 / 10000 ≤ fps - (⌊fps⌋ : ℚ) →
      frame_rate_text fps = pyFmt2 fps ++ (" fps")) := by
  have htr : pyTrunc fps = ⌊fps⌋ := by
    rw [pyTrunc, if_neg (not_lt.mpr (le_of_lt hpos))]
  have habs : |fps - (pyTrunc fps : ℚ)| = fps - (⌊fps⌋ : ℚ) := by
    rw [htr]
    exact abs_of_nonneg (sub_nonneg.mpr (Int.floor_le fps))
  constructor
  · intro hlt
    rw [frame_rate_text, habs, if_pos hlt, htr]
  · intro hge
    rw [frame_rate_text, habs, if_neg (not_lt.mpr hge)]

/-- Witness for frame_rate_text_amended at the integer rate 25. -/
theorem frame_rate_text_amended_witness :
    frame_rate_text (25 : ℚ) = String.mk ['2', '5', ' ', 'f', 'p', 's'] := by
  have h := (frame_rate_text_amended 25 (by norm_num)).1 (by norm_num)
  rw [h]
  decide

/-! ### SHA-1 digest shape and caching -/

theorem wordBytes_lt (w : ℕ) : ∀ b ∈ wordBytes w, b < 256 := by
  intro b hb
  rw [wordBytes] at hb
  simp only [List.mem_cons, List.not_mem_nil, or_false] at hb
  rcases hb with h | h | h | h <;>
    exact h ▸ Nat.mod_lt _ (by norm_num)

theorem sha1bytes_length (msg : List ℕ) : (sha1bytes msg).length = 20 := by
  rw [sha1bytes]
  rcases (chunks64 (sha1pad msg)).foldl processChunk
      (1732584193, 4023233417, 2562383102, 271733878, 3285377520) with
    ⟨h0, h1, h2, h3, h4⟩
  simp [wordBytes]

theorem sha1bytes_lt (msg : List ℕ) : ∀ b ∈ sha1bytes msg, b < 256 := by
  rw [sha1bytes]
  rcases (chunks64 (sha1pad msg)).foldl processChunk
      (1732584193, 4023233417, 2562383102, 271733878, 3285377520) with
    ⟨h0, h1, h2, h3, h4⟩
  intro b hb
  simp only [List.mem_append] at hb
  rcases hb with ((((h | h) | h) | h) | h) <;> exact wordBytes_lt _ b h

theorem pyUpper_length (s : String) : (pyUpper s).length = s.length := by
  rw [pyUpper, String.length, String.length]
  exact List.length_map s.data Char.toUpper

theorem hexdigest_length (bytes : List ℕ) :
    (hexdigest bytes).length = 2 * bytes.length := by
  induction bytes with
  | nil => rfl
  | cons b bs ih =>
    rw [hexdigest, String.length] at ih ⊢
    simp only [List.map_cons, List.flatten_cons, List.length_append] at ih ⊢
    rw [ih]
    rw [byteHex]
    simp only [List.length_cons, List.length_nil, List.length_cons]
    omega

theorem upperHex_of_hexChar : ∀ k < 16,
    isUpperHexChar (Char.toUpper (hexChar k)) = true := by decide

theorem upperHexdigest_chars (bytes : List ℕ) (hb : ∀ b ∈ bytes, b < 256) :
    ∀ c ∈ (pyUpper (hexdigest bytes)).data, isUpperHexChar c = true := by
  intro c hc
  rw [pyUpper, hexdigest] at hc
  simp only [List.mem_map, List.mem_flatten] at hc
  obtain ⟨c', ⟨l, hl, hcl⟩, rfl⟩ := hc
  obtain ⟨b, hbmem, rfl⟩ := hl
  have hblt : b < 256 := hb b hbmem
  rw [byteHex] at hcl
  simp only [List.mem_cons, List.not_mem_nil, or_false] at hcl
  rcases hcl with rfl | rfl
  · exact upperHex_of_hexChar (b / 16) (by omega)
  · exact upperHex_of_hexChar (b % 16) (Nat.mod_lt _ (by norm_num))

/-- C4: the sha1sum field is none right after construction; the first
request (through get_sha1sum itself, compute_sha1sum, or
format_metadata with include_sha1sum) computes a digest of exactly 40
uppercase hexadecimal characters and caches it, and every later
request, for any content, returns the cached value with the state
unchanged, never recomputing. -/
theorem sha1sum_spec :
    video_init.sha1sum = none ∧
    ∀ content : List ℕ,
      (get_sha1sum content video_init).1.length = 40 ∧
      (∀ c ∈ (get_sha1sum content video_init).1.data, isUpperHexChar c = true) ∧
      (get_sha1sum content video_init).2.sha1sum =
        some (get_sha1sum content video_init).1 ∧
      (∀ content' : List ℕ,
        get_sha1sum content' (get_sha1sum content video_init).2 =
          ((get_sha1sum content video_init).1, (get_sha1sum content video_init).2)) ∧
      compute_sha1sum content video_init = get_sha1sum content video_init ∧
      format_metadata_sha1 true content video_init =
        (some (get_sha1sum content video_init).1,
          (get_sha1sum content video_init).2) := by
  refine ⟨rfl, ?_⟩
  intro content
  refine ⟨?_, ?_, rfl, fun content' => rfl, rfl, rfl⟩
  · show (pyUpper (hexdigest (sha1bytes content))).length = 40
    rw [pyUpper_length, hexdigest_length, sha1bytes_length]
  · show ∀ c ∈ (pyUpper (hexdigest (sha1bytes content))).data, isUpperHexChar c = true
    exact upperHexdigest_chars (sha1bytes content) (sha1bytes_lt content)

/-- Witness for sha1sum_spec: the digest of the empty content has 40
characters and its first character D is an uppercase hex digit. -/
theorem sha1sum_spec_witness :
    (get_sha1sum [] video_init).1.length = 40 ∧ isUpperHexChar 'D' = true :=
  ⟨(sha1sum_spec.2 []).1, (sha1sum_spec.2 []).2.1 'D' (by decide)⟩

/-! ### humansize banding -/

theorem hsGo_band (us : List String) : ∀ (size : ℚ) (j : ℕ), j < us.length →
    1024 ^ (j + 1) ≤ size → size < 1024 ^ (j + 2) →
    hsGo size us = bandFmt (size / 1024 ^ (j + 1)) (us.getD j ("")) := by
  induction us with
  | nil =>
    intro size j hj h1 h2
    simp at hj
  | cons u us ih =>
    intro size j hj h1 h2
    rcases j with _ | j'
    · have hlt : size / 1024 < 1024 := by
        rw [div_lt_iff₀ (by norm_num)]
        calc size < 1024 ^ (0 + 2) := h2
        _ = 1024 * 1024 := by norm_num
      rcases us with _ | ⟨v, vs⟩
      · simp only [hsGo, if_pos hlt]
        norm_num
      · simp only [hsGo, if_pos hlt]
        norm_num
    · rcases us with _ | ⟨v, vs⟩
      · simp at hj
      · have hge : ¬ size / 1024 < 1024 := by
          rw [not_lt, le_div_iff₀ (by norm_num)]
          calc (1024 : ℚ) * 1024 = 1024 ^ 2 := by norm_num
          _ ≤ 1024 ^ (j' + 2) := by
            apply pow_le_pow_right₀ (by norm_num)
            omega
          _ ≤ size := h1
        have h1' : 1024 ^ (j' + 1) ≤ size / 1024 := by
          rw [le_div_iff₀ (by norm_num)]
          calc (1024 : ℚ) ^ (j' + 1) * 1024 = 1024 ^ (j' + 2) := by ring
          _ ≤ size := h1
        have h2' : size / 1024 < 1024 ^ (j' + 2) := by
          rw [div_lt_iff₀ (by norm_num)]
          calc size < 1024 ^ (j' + 3) := h2
          _ = 1024 ^ (j' + 2) * 1024 := by ring
        have hrec := ih (size / 1024) j' (by simpa using hj) h1' h2'
        simp only [hsGo, if_neg hge]
        rw [hrec, div_div]
        norm_num
        ring_nf

/-- The for-else overflow branch: when even after using every unit the
value is at least 1024, the last unit is used with one decimal. -/
theorem hsGo_overflow (us : List String) : ∀ size : ℚ, us ≠ [] →
    1024 ^ (us.length + 1) ≤ size →
    hsGo size us =
      fmtFixed (round_up (size / 1024 ^ us.length) 1) 1 ++
        us.getD (us.length - 1) ("") ++ ("B") := by
  induction us with
  | nil => intro size hne; exact absurd rfl hne
  | cons u us ih =>
    intro size _ h1
    rcases us with _ | ⟨v, vs⟩
    · have hge : ¬ size / 1024 < 1024 := by
        rw [not_lt, le_div_iff₀ (by norm_num)]
        calc (1024 : ℚ) * 1024 = 1024 ^ (1 + 1) := by norm_num
        _ ≤ size := h1
      simp only [hsGo, if_neg hge]
      norm_num
    · have hge : ¬ size / 1024 < 1024 := by
        rw [not_lt, le_div_iff₀ (by norm_num)]
        calc (1024 : ℚ) * 1024 = 1024 ^ 2 := by norm_num
        _ ≤ 1024 ^ ((v :: vs).length + 1 + 1) := by
          apply pow_le_pow_right₀ (by norm_num)
          simp
        _ ≤ size := by simpa using h1
      have h1' : 1024 ^ ((v :: vs).length + 1) ≤ size / 1024 := by
        rw [le_div_iff₀ (by norm_num)]
        calc (1024 : ℚ) ^ ((v :: vs).length + 1) * 1024 =
            1024 ^ ((v :: vs).length + 1 + 1) := by ring
        _ ≤ size := by simpa using h1
      have hrec := ih (size / 1024) (by simp) h1'
      simp only [hsGo, if_neg hge]
      rw [hrec, div_div]
      simp only [List.length_cons, List.getD_cons_succ, Nat.add_sub_cancel]
      have hpow : (1024 : ℚ) * 1024 ^ (vs.length + 1) = 1024 ^ (vs.length + 1 + 1) := by
        ring
      rw [hpow]

/-- C9 counterexample: the unit list stops at Zi, so the first size
needing a Yi unit (1024^8 bytes, exactly 1 YiB) is rendered as
1024.0ZiB — the Yi unit never appears and the value, although at least
100 in its unit, is given one decimal place rather than zero. -/
theorem humansize_cex :
    humansize (1024 ^ 8) = String.mk
      ['1', '0', '2', '4', '.', '0', 'Z', 'i', 'B'] ∧
    ∀ c ∈ (humansize (1024 ^ 8)).data, c ≠ 'Y' := by
  constructor
  · decide
  · decide

/-- C9 amended: humansize scales by powers of 1024 through the units
Ki..Zi only (seven units); below 1024 the byte count is printed as an
integer; for sizes in the band of unit j (0-based, j < 7) the value
scaled by 1024^(j+1) is formatted with 2, 1 or 0 decimals according to
whether it is below 10, below 100, or at least 100, each rounded upward
with round_up; sizes of at least 1024^8 stay in the last unit Zi with
one decimal.  The three concrete examples of the claim hold. -/
theorem humansize_amended :
    humansize 1 = String.mk ['1', 'B'] ∧
    humansize 10000 = String.mk ['9', '.', '7', '7', 'K', 'i', 'B'] ∧
    humansize 10000000000 = String.mk ['9', '.', '3', '2', 'G', 'i', 'B'] ∧
    (∀ size : ℕ, size < 1024 → humansize size = natDecStr size ++ ("B")) ∧
    (∀ (size : ℕ) (j : ℕ), j < 7 → 1024 ^ (j + 1) ≤ size → size < 1024 ^ (j + 2) →
      humansize size =
        (let q : ℚ := (size : ℚ) / 1024 ^ (j + 1)
         if q < 10 then fmtFixed (round_up q 2) 2 ++ hsUnits.getD j ("") ++ ("B")
         else if q < 100 then fmtFixed (round_up q 1) 1 ++ hsUnits.getD j ("") ++ ("B")
         else fmtFixed (round_up q 0) 0 ++ hsUnits.getD j ("") ++ ("B"))) ∧
    (∀ size : ℕ, 1024 ^ 8 ≤ size →
      humansize size =
        fmtFixed (round_up ((size : ℚ) / 1024 ^ 7) 1) 1 ++ ("Zi") ++ ("B")) := by
  refine ⟨by decide, by decide, by decide, ?_, ?_, ?_⟩
  · intro size h
    rw [humansize, if_pos h]
  · intro size j hj h1 h2
    have hge : ¬ size < 1024 := by
      have : 1024 ≤ 1024 ^ (j + 1) := by
        calc (1024 : ℕ) = 1024 ^ 1 := by norm_num
        _ ≤ 1024 ^ (j + 1) := Nat.pow_le_pow_right (by norm_num) (by omega)
      omega
    rw [humansize, if_neg hge]
    have h1q : (1024 : ℚ) ^ (j + 1) ≤ (size : ℚ) := by exact_mod_cast h1
    have h2q : (size : ℚ) < 1024 ^ (j + 2) := by exact_mod_cast h2
    rw [hsGo_band hsUnits (size : ℚ) j (by rw [hsUnits]; simpa using hj) h1q h2q]
    rw [bandFmt]
  · intro size h
    have hge : ¬ size < 1024 := by
      have : 1024 ≤ 1024 ^ 8 := by norm_num
      omega
    rw [humansize, if_neg hge]
    have hq : (1024 : ℚ) ^ (7 + 1) ≤ (size : ℚ) := by exact_mod_cast h
    have hlen : hsUnits.length = 7 := by rw [hsUnits]; rfl
    rw [hsGo_overflow hsUnits (size : ℚ) (by rw [hsUnits]; simp) (by rw [hlen]; exact hq),
      hlen]
    rfl

/-- Witness for humansize_amended: 10000 bytes fall in the Ki band. -/
theorem humansize_amended_witness :
    humansize 10000 =
      (let q : ℚ := (10000 : ℚ) / 1024 ^ (0 + 1)
       if q < 10 then fmtFixed (round_up q 2) 2 ++ hsUnits.getD 0 ("") ++ ("B")
       else if q < 100 then fmtFixed (round_up q 1) 1 ++ hsUnits.getD 0 ("") ++ ("B")
       else fmtFixed (round_up q 0) 0 ++ hsUnits.getD 0 ("") ++ ("B")) :=
  humansize_amended.2.2.2.2.1 10000 0 (by norm_num) (by norm_num) (by norm_num)

/-! ### gen_frames -/

theorem extractLoop_ok_of_succ (extract : ℚ → Option ℕ) :
    ∀ (ts : List ℚ) (frames : List SFrame),
    (∀ t ∈ ts, (extract t).isSome = true) →
    ∃ frames', extractLoop extract ts frames = Except.ok frames' ∧
      frames'.map SFrame.timestamp = frames.map SFrame.timestamp ++ ts := by
  intro ts
  induction ts with
  | nil => intro frames _; exact ⟨frames, rfl, by simp⟩
  | cons t ts ih =>
    intro frames h
    obtain ⟨img, himg⟩ := Option.isSome_iff_exists.mp (h t (List.mem_cons_self t ts))
    obtain ⟨frames', h1, h2⟩ := ih (frames ++ [⟨t, img⟩])
      (fun x hx => h x (List.mem_cons_of_mem t hx))
    refine ⟨frames', ?_, ?_⟩
    · rw [extractLoop, himg]
      exact h1
    · rw [h2]
      simp

/-- C10 counterexample: with a reported duration of zero (and every
extraction succeeding), gen_frames on an empty frames list appends two
frames both at timestamp 0, so the timestamps are not strictly
increasing as the claim states for every known duration. -/
theorem gen_frames_cex :
    gen_frames (fun _ => some 0) 0 2 [] = Except.ok [⟨0, 0⟩, ⟨0, 0⟩] ∧
    ¬ List.Pairwise (fun a b : SFrame => a.timestamp < b.timestamp)
        [⟨0, 0⟩, ⟨0, 0⟩] := by
  constructor
  · decide
  · decide

/-- C10 amended: for a positive known duration D, a frame count of at
least one whose extractions all succeed, and an empty frames list,
gen_frames appends exactly count frames with timestamps
D(2i+1)/(2 count) in strictly increasing order, and an immediately
repeated call with the same count (with any extractor at all) returns
the frames list unchanged. -/
theorem gen_frames_spec (extract : ℚ → Option ℕ) (D : ℚ) (hD : 0 < D)
    (count : ℕ) (hc : 1 ≤ count)
    (hsucc : ∀ t ∈ (List.range count).map
      (fun (i : ℕ) => D / (count : ℚ) * ((i : ℚ) + 1 / 2)), (extract t).isSome = true) :
    ∃ frames', gen_frames extract D count [] = Except.ok frames' ∧
      frames'.length = count ∧
      frames'.map SFrame.timestamp =
        (List.range count).map
          (fun (i : ℕ) => D * (2 * (i : ℚ) + 1) / (2 * (count : ℚ))) ∧
      (frames'.map SFrame.timestamp).Pairwise (· < ·) ∧
      (∀ extract2 : ℚ → Option ℕ,
        gen_frames extract2 D count frames' = Except.ok frames') := by
  have hc0 : (count : ℚ) ≠ 0 := by
    exact_mod_cast Nat.pos_iff_ne_zero.mp (by omega)
  obtain ⟨frames', h1, h2⟩ := extractLoop_ok_of_succ extract
    ((List.range count).map (fun (i : ℕ) => D / (count : ℚ) * ((i : ℚ) + 1 / 2))) [] hsucc
  have hts : (List.range count).map
      (fun (i : ℕ) => D / (count : ℚ) * ((i : ℚ) + 1 / 2)) =
      (List.range count).map
        (fun (i : ℕ) => D * (2 * (i : ℚ) + 1) / (2 * (count : ℚ))) := by
    apply List.map_congr_left
    intro i _
    field_simp
    ring
  have hmap : frames'.map SFrame.timestamp =
      (List.range count).map
        (fun (i : ℕ) => D * (2 * (i : ℚ) + 1) / (2 * (count : ℚ))) := by
    rw [h2, ← hts]
    simp
  have hlen : frames'.length = count := by
    have := congrArg List.length hmap
    simpa using this
  refine ⟨frames', ?_, hlen, hmap, ?_, ?_⟩
  · rw [gen_frames, if_neg (by simp; omega)]
    exact h1
  · rw [hmap, List.pairwise_map]
    apply List.Pairwise.imp ?_ (List.pairwise_lt_range count)
    intro i j hij
    have hij' : (2 * (i : ℚ) + 1) < 2 * (j : ℚ) + 1 := by
      have : (i : ℚ) < (j : ℚ) := by exact_mod_cast hij
      linarith
    have h2c : (0 : ℚ) < 2 * (count : ℚ) := by
      have : (0 : ℚ) < (count : ℚ) := by
        exact_mod_cast Nat.lt_of_lt_of_le Nat.zero_lt_one hc
      linarith
    exact div_lt_div_of_pos_right (by nlinarith) h2c
  · intro extract2
    rw [gen_frames, if_pos hlen]

/-- Witness for gen_frames_spec at D = 60, count = 3 with an extractor
that always succeeds. -/
theorem gen_frames_spec_witness :
    ∃ frames', gen_frames (fun _ => some 0) 60 3 [] = Except.ok frames' ∧
      frames'.length = 3 := by
  obtain ⟨f', h1, h2, _⟩ := gen_frames_spec (fun _ => some 0) 60 (by norm_num) 3
    (by norm_num) (fun t _ => rfl)
  exact ⟨f', h1, h2⟩

/-! ### tile_images: check-loop characterizations -/

theorem getImg_of_lt {images : List Img} {i : ℕ} (h : i < images.length) :
    getImg images i = Except.ok (images.getD i (0, 0)) := by
  rw [getImg, List.getElem?_eq_getElem h, List.getD_eq_getElem images (0, 0) h]

theorem getImg_ok_getD {images : List Img} {i : ℕ} {im : Img}
    (h : getImg images i = Except.ok im) : images.getD i (0, 0) = im := by
  rw [getImg] at h
  rcases he : images[i]? with _ | im'
  · rw [he] at h
    exact absurd h (by simp)
  · rw [he] at h
    simp only [Except.ok.injEq] at h
    rw [List.getD_eq_getElem?_getD, he, h]
    rfl

theorem getImg_lt_of_ok {images : List Img} {i : ℕ} {im : Img}
    (h : getImg images i = Except.ok im) : i < images.length := by
  rw [getImg] at h
  rcases he : images[i]? with _ | im'
  · rw [he] at h
    exact absurd h (by simp)
  · exact (List.getElem?_eq_some_iff.mp he).1

theorem idx_lt {row col cols rows : ℕ} (hr : row < rows) (hcol : col < cols) :
    row * cols + col < rows * cols := by
  calc row * cols + col < row * cols + cols := by omega
  _ = (row + 1) * cols := by ring
  _ ≤ rows * cols := Nat.mul_le_mul_right cols hr

theorem checkWidthCol_ok_iff (images : List Img) (cols col : ℕ) (refW refH : ℤ)
    (l : List ℕ) (hb : ∀ row ∈ l, row * cols + col < images.length) :
    (checkWidthCol images cols col refW refH l = Except.ok () ↔
      ∀ row ∈ l, (images.getD (row * cols + col) (0, 0)).1 = refW) := by
  induction l with
  | nil => simp [checkWidthCol]
  | cons row rest ih =>
    have hlt := hb row (List.mem_cons_self row rest)
    have hrest := fun x hx => hb x (List.mem_cons_of_mem row hx)
    simp only [checkWidthCol]
    rw [getImg_of_lt hlt]
    rcases hgd : images.getD (row * cols + col) (0, 0) with ⟨w, h⟩
    simp only []
    by_cases hw : w = refW
    · rw [if_neg (not_not_intro hw), ih hrest]
      constructor
      · intro hall x hx
        rcases List.mem_cons.mp hx with rfl | hx'
        · rw [hgd, hw]
        · exact hall x hx'
      · intro hall x hx
        exact hall x (List.mem_cons_of_mem row hx)
    · rw [if_pos hw]
      constructor
      · intro he
        exact absurd he (by simp)
      · intro hall
        have hcontr := hall row (List.mem_cons_self row rest)
        rw [hgd] at hcontr
        exact absurd hcontr hw

theorem checkWidthCol_err (images : List Img) (cols col : ℕ) (refW refH : ℤ)
    (l : List ℕ) (e : TileError)
    (hb : ∀ row ∈ l, row * cols + col < images.length)
    (h : checkWidthCol images cols col refW refH l = Except.error e) :
    ∃ row ∈ l, e = TileError.inconsistentWidth (row * cols + col) row col
        (images.getD (row * cols + col) (0, 0)).1
        (images.getD (row * cols + col) (0, 0)).2 col refW refH ∧
      (images.getD (row * cols + col) (0, 0)).1 ≠ refW := by
  induction l with
  | nil => exact absurd h (by simp [checkWidthCol])
  | cons row rest ih =>
    have hlt := hb row (List.mem_cons_self row rest)
    have hrest := fun x hx => hb x (List.mem_cons_of_mem row hx)
    simp only [checkWidthCol] at h
    rw [getImg_of_lt hlt] at h
    rcases hgd : images.getD (row * cols + col) (0, 0) with ⟨w, hh⟩
    rw [hgd] at h
    simp only [] at h
    by_cases hw : w = refW
    · rw [if_neg (not_not_intro hw)] at h
      obtain ⟨row', hmem, heq, hne⟩ := ih hrest h
      exact ⟨row', List.mem_cons_of_mem row hmem, heq, hne⟩
    · rw [if_pos hw] at h
      simp only [Except.error.injEq] at h
      refine ⟨row, List.mem_cons_self row rest, ?_, ?_⟩
      · rw [hgd]
        exact h.symm
      · rw [hgd]
        exact hw

theorem checkWidthCols_ok_iff (images : List Img) (cols rows : ℕ) (l : List ℕ) :
    ∀ acc : ℤ,
    (∀ col ∈ l, col < images.length ∧
      ∀ row ∈ List.range' 1 (rows - 1), row * cols + col < images.length) →
    ((∃ v, checkWidthCols images cols rows acc l = Except.ok v) ↔
      ∀ col ∈ l, ∀ row ∈ List.range' 1 (rows - 1),
        (images.getD (row * cols + col) (0, 0)).1 = (images.getD col (0, 0)).1) := by
  induction l with
  | nil => intro acc _; simp [checkWidthCols]
  | cons col rest ih =>
    intro acc hb
    have hcol := (hb col (List.mem_cons_self col rest)).1
    have hrows := (hb col (List.mem_cons_self col rest)).2
    have hrest := fun x hx => hb x (List.mem_cons_of_mem col hx)
    simp only [checkWidthCols]
    rw [getImg_of_lt hcol]
    rcases hgd : images.getD col (0, 0) with ⟨rW, rH⟩
    simp only []
    rcases hchk : checkWidthCol images cols col rW rH (List.range' 1 (rows - 1))
      with e | u
    · constructor
      · rintro ⟨v, hv⟩
        exact absurd hv (by simp)
      · intro hall
        exfalso
        have hok := (checkWidthCol_ok_iff images cols col rW rH _ hrows).mpr
          (fun row hr => by
            have := hall col (List.mem_cons_self col rest) row hr
            rw [hgd] at this
            exact this)
        rw [hchk] at hok
        exact absurd hok (by simp)
    · cases u
      have hcolEq : ∀ row ∈ List.range' 1 (rows - 1),
          (images.getD (row * cols + col) (0, 0)).1 = (images.getD col (0, 0)).1 := by
        intro row hr
        rw [hgd]
        exact (checkWidthCol_ok_iff images cols col rW rH _ hrows).mp hchk row hr
      rw [ih (acc + rW) hrest]
      constructor
      · intro hall x hx
        rcases List.mem_cons.mp hx with rfl | hx'
        · exact hcolEq
        · exact hall x hx'
      · intro hall x hx
        exact hall x (List.mem_cons_of_mem col hx)

theorem checkWidthCols_ok_val (images : List Img) (cols rows : ℕ) (l : List ℕ) :
    ∀ (acc v : ℤ), checkWidthCols images cols rows acc l = Except.ok v →
    v = acc + (l.map (fun col => (images.getD col (0, 0)).1)).sum := by
  induction l with
  | nil =>
    intro acc v h
    simp only [checkWidthCols, Except.ok.injEq] at h
    simp [← h]
  | cons col rest ih =>
    intro acc v h
    simp only [checkWidthCols] at h
    rcases hg : getImg images col with e | im
    · rw [hg] at h
      exact absurd h (by simp)
    · rw [hg] at h
      rcases im with ⟨rW, rH⟩
      simp only [] at h
      rcases hchk : checkWidthCol images cols col rW rH (List.range' 1 (rows - 1))
        with e | u
      · rw [hchk] at h
        exact absurd h (by simp)
      · cases u
        rw [hchk] at h
        simp only [] at h
        have hv := ih (acc + rW) v h
        have hgd : images.getD col (0, 0) = (rW, rH) := getImg_ok_getD hg
        rw [hv, List.map_cons, List.sum_cons, hgd]
        ring

theorem checkWidthCols_err (images : List Img) (cols rows : ℕ) (l : List ℕ) :
    ∀ (acc : ℤ) (e : TileError),
    (∀ col ∈ l, col < images.length ∧
      ∀ row ∈ List.range' 1 (rows - 1), row * cols + col < images.length) →
    checkWidthCols images cols rows acc l = Except.error e →
    ∃ col ∈ l, ∃ row ∈ List.range' 1 (rows - 1),
      e = TileError.inconsistentWidth (row * cols + col) row col
        (images.getD (row * cols + col) (0, 0)).1
        (images.getD (row * cols + col) (0, 0)).2 col
        (images.getD col (0, 0)).1 (images.getD col (0, 0)).2 ∧
      (images.getD (row * cols + col) (0, 0)).1 ≠ (images.getD col (0, 0)).1 := by
  induction l with
  | nil => intro acc e _ h; exact absurd h (by simp [checkWidthCols])
  | cons col rest ih =>
    intro acc e hb h
    have hcol := (hb col (List.mem_cons_self col rest)).1
    have hrows := (hb col (List.mem_cons_self col rest)).2
    have hrest := fun x hx => hb x (List.mem_cons_of_mem col hx)
    simp only [checkWidthCols] at h
    rw [getImg_of_lt hcol] at h
    rcases hgd : images.getD col (0, 0) with ⟨rW, rH⟩
    rw [hgd] at h
    simp only [] at h
    rcases hchk : checkWidthCol images cols col rW rH (List.range' 1 (rows - 1))
      with e' | u
    · rw [hchk] at h
      simp only [Except.error.injEq] at h
      obtain ⟨row, hmem, heq, hne⟩ := checkWidthCol_err images cols col rW rH _ e'
        hrows hchk
      refine ⟨col, List.mem_cons_self col rest, row, hmem, ?_, ?_⟩
      · rw [hgd, ← h, heq]
      · rw [hgd]
        exact hne
    · cases u
      rw [hchk] at h
      simp only [] at h
      obtain ⟨col', hc', row', hr', heq, hne⟩ := ih (acc + rW) e hrest h
      exact ⟨col', List.mem_cons_of_mem col hc', row', hr', heq, hne⟩

theorem checkHeightRow_ok_iff (images : List Img) (cols row : ℕ) (refW refH : ℤ)
    (l : List ℕ) (hb : ∀ col ∈ l, row * cols + col < images.length) :
    (checkHeightRow images cols row refW refH l = Except.ok () ↔
      ∀ col ∈ l, (images.getD (row * cols + col) (0, 0)).2 = refH) := by
  induction l with
  | nil => simp [checkHeightRow]
  | cons col rest ih =>
    have hlt := hb col (List.mem_cons_self col rest)
    have hrest := fun x hx => hb x (List.mem_cons_of_mem col hx)
    simp only [checkHeightRow]
    rw [getImg_of_lt hlt]
    rcases hgd : images.getD (row * cols + col) (0, 0) with ⟨w, hh⟩
    simp only []
    by_cases hw : hh = refH
    · rw [if_neg (not_not_intro hw), ih hrest]
      constructor
      · intro hall x hx
        rcases List.mem_cons.mp hx with rfl | hx'
        · rw [hgd, hw]
        · exact hall x hx'
      · intro hall x hx
        exact hall x (List.mem_cons_of_mem col hx)
    · rw [if_pos hw]
      constructor
      · intro he
        exact absurd he (by simp)
      · intro hall
        have hcontr := hall col (List.mem_cons_self col rest)
        rw [hgd] at hcontr
        exact absurd hcontr hw

theorem checkHeightRow_err (images : List Img) (cols row : ℕ) (refW refH : ℤ)
    (l : List ℕ) (e : TileError)
    (hb : ∀ col ∈ l, row * cols + col < images.length)
    (h : checkHeightRow images cols row refW refH l = Except.error e) :
    ∃ col ∈ l, e = TileError.inconsistentHeight (row * cols + col) row col
        (images.getD (row * cols + col) (0, 0)).1
        (images.getD (row * cols + col) (0, 0)).2 (row * cols) refW refH ∧
      (images.getD (row * cols + col) (0, 0)).2 ≠ refH := by
  induction l with
  | nil => exact absurd h (by simp [checkHeightRow])
  | cons col rest ih =>
    have hlt := hb col (List.mem_cons_self col rest)
    have hrest := fun x hx => hb x (List.mem_cons_of_mem col hx)
    simp only [checkHeightRow] at h
    rw [getImg_of_lt hlt] at h
    rcases hgd : images.getD (row * cols + col) (0, 0) with ⟨w, hh⟩
    rw [hgd] at h
    simp only [] at h
    by_cases hw : hh = refH
    · rw [if_neg (not_not_intro hw)] at h
      obtain ⟨col', hmem, heq, hne⟩ := ih hrest h
      exact ⟨col', List.mem_cons_of_mem col hmem, heq, hne⟩
    · rw [if_pos hw] at h
      simp only [Except.error.injEq] at h
      refine ⟨col, List.mem_cons_self col rest, ?_, ?_⟩
      · rw [hgd]
        exact h.symm
      · rw [hgd]
        exact hw

theorem checkHeightRows_ok_iff (images : List Img) (cols rows : ℕ) (l : List ℕ) :
    ∀ acc : ℤ,
    (∀ row ∈ l, row * cols < images.length ∧
      ∀ col ∈ List.range' 1 (cols - 1), row * cols + col < images.length) →
    ((∃ v, checkHeightRows images cols rows acc l = Except.ok v) ↔
      ∀ row ∈ l, ∀ col ∈ List.range' 1 (cols - 1),
        (images.getD (row * cols + col) (0, 0)).2 =
          (images.getD (row * cols) (0, 0)).2) := by
  induction l with
  | nil => intro acc _; simp [checkHeightRows]
  | cons row rest ih =>
    intro acc hb
    have hrow := (hb row (List.mem_cons_self row rest)).1
    have hcols := (hb row (List.mem_cons_self row rest)).2
    have hrest := fun x hx => hb x (List.mem_cons_of_mem row hx)
    simp only [checkHeightRows]
    rw [getImg_of_lt hrow]
    rcases hgd : images.getD (row * cols) (0, 0) with ⟨rW, rH⟩
    simp only []
    rcases hchk : checkHeightRow images cols row rW rH (List.range' 1 (cols - 1))
      with e | u
    · constructor
      · rintro ⟨v, hv⟩
        exact absurd hv (by simp)
      · intro hall
        exfalso
        have hok := (checkHeightRow_ok_iff images cols row rW rH _ hcols).mpr
          (fun col hc => by
            have := hall row (List.mem_cons_self row rest) col hc
            rw [hgd] at this
            exact this)
        rw [hchk] at hok
        exact absurd hok (by simp)
    · cases u
      have hrowEq : ∀ col ∈ List.range' 1 (cols - 1),
          (images.getD (row * cols + col) (0, 0)).2 =
            (images.getD (row * cols) (0, 0)).2 := by
        intro col hc
        rw [hgd]
        exact (checkHeightRow_ok_iff images cols row rW rH _ hcols).mp hchk col hc
      rw [ih (acc + rH) hrest]
      constructor
      · intro hall x hx
        rcases List.mem_cons.mp hx with rfl | hx'
        · exact hrowEq
        · exact hall x hx'
      · intro hall x hx
        exact hall x (List.mem_cons_of_mem row hx)

theorem checkHeightRows_ok_val (images : List Img) (cols rows : ℕ) (l : List ℕ) :
    ∀ (acc v : ℤ), checkHeightRows images cols rows acc l = Except.ok v →
    v = acc + (l.map (fun row => (images.getD (row * cols) (0, 0)).2)).sum := by
  induction l with
  | nil =>
    intro acc v h
    simp only [checkHeightRows, Except.ok.injEq] at h
    simp [← h]
  | cons row rest ih =>
    intro acc v h
    simp only [checkHeightRows] at h
    rcases hg : getImg images (row * cols) with e | im
    · rw [hg] at h
      exact absurd h (by simp)
    · rw [hg] at h
      rcases im with ⟨rW, rH⟩
      simp only [] at h
      rcases hchk : checkHeightRow images cols row rW rH (List.range' 1 (cols - 1))
        with e | u
      · rw [hchk] at h
        exact absurd h (by simp)
      · cases u
        rw [hchk] at h
        simp only [] at h
        have hv := ih (acc + rH) v h
        have hgd : images.getD (row * cols) (0, 0) = (rW, rH) := getImg_ok_getD hg
        rw [hv, List.map_cons, List.sum_cons, hgd]
        ring

theorem checkHeightRows_err (images : List Img) (cols rows : ℕ) (l : List ℕ) :
    ∀ (acc : ℤ) (e : TileError),
    (∀ row ∈ l, row * cols < images.length ∧
      ∀ col ∈ List.range' 1 (cols - 1), row * cols + col < images.length) →
    checkHeightRows images cols rows acc l = Except.error e →
    ∃ row ∈ l, ∃ col ∈ List.range' 1 (cols - 1),
      e = TileError.inconsistentHeight (row * cols + col) row col
        (images.getD (row * cols + col) (0, 0)).1
        (images.getD (row * cols + col) (0, 0)).2 (row * cols)
        (images.getD (row * cols) (0, 0)).1 (images.getD (row * cols) (0, 0)).2 ∧
      (images.getD (row * cols + col) (0, 0)).2 ≠
        (images.getD (row * cols) (0, 0)).2 := by
  induction l with
  | nil => intro acc e _ h; exact absurd h (by simp [checkHeightRows])
  | cons row rest ih =>
    intro acc e hb h
    have hrow := (hb row (List.mem_cons_self row rest)).1
    have hcols := (hb row (List.mem_cons_self row rest)).2
    have hrest := fun x hx => hb x (List.mem_cons_of_mem row hx)
    simp only [checkHeightRows] at h
    rw [getImg_of_lt hrow] at h
    rcases hgd : images.getD (row * cols) (0, 0) with ⟨rW, rH⟩
    rw [hgd] at h
    simp only [] at h
    rcases hchk : checkHeightRow images cols row rW rH (List.range' 1 (cols - 1))
      with e' | u
    · rw [hchk] at h
      simp only [Except.error.injEq] at h
      obtain ⟨col, hmem, heq, hne⟩ := checkHeightRow_err images cols row rW rH _ e'
        hcols hchk
      refine ⟨row, List.mem_cons_self row rest, col, hmem, ?_, ?_⟩
      · rw [hgd, ← h, heq]
      · rw [hgd]
        exact hne
    · cases u
      rw [hchk] at h
      simp only [] at h
      obtain ⟨row', hr', col', hc', heq, hne⟩ := ih (acc + rH) e hrest h
      exact ⟨row', List.mem_cons_of_mem row hr', col', hc', heq, hne⟩

theorem pasteCols_ok (images : List Img) (cols row : ℕ) (resizeTo : Option Img)
    (l : List ℕ) (hb : ∀ col ∈ l, row * cols + col < images.length) :
    pasteCols images cols row resizeTo l =
      Except.ok (l.map
        (fun col => resizeTo.getD (images.getD (row * cols + col) (0, 0)))) := by
  induction l with
  | nil => rfl
  | cons col rest ih =>
    have hlt := hb col (List.mem_cons_self col rest)
    have hrest := fun x hx => hb x (List.mem_cons_of_mem col hx)
    simp only [pasteCols]
    rw [getImg_of_lt hlt, ih hrest]
    rfl

theorem pasteRows_ok (images : List Img) (cols : ℕ) (resizeTo : Option Img)
    (l : List ℕ)
    (hb : ∀ row ∈ l, row * cols < images.length ∧
      ∀ col ∈ List.range cols, row * cols + col < images.length) :
    ∃ ps, pasteRows images cols resizeTo l = Except.ok ps ∧
      ps.length = l.length * cols ∧
      (∀ p ∈ ps, ∃ i, p = resizeTo.getD (images.getD i (0, 0))) := by
  induction l with
  | nil => exact ⟨[], rfl, by simp, by simp⟩
  | cons row rest ih =>
    have hrow := (hb row (List.mem_cons_self row rest)).1
    have hcols := (hb row (List.mem_cons_self row rest)).2
    have hrest := fun x hx => hb x (List.mem_cons_of_mem row hx)
    obtain ⟨ps', h1, h2, h3⟩ := ih hrest
    refine ⟨(List.range cols).map
      (fun col => resizeTo.getD (images.getD (row * cols + col) (0, 0))) ++ ps',
      ?_, ?_, ?_⟩
    · simp only [pasteRows]
      rw [pasteCols_ok images cols row resizeTo _ hcols, getImg_of_lt hrow, h1]
    · simp only [List.length_append, List.length_map, List.length_range, h2,
        List.length_cons]
      ring
    · intro p hp
      rcases List.mem_append.mp hp with hmem | hmem
      · obtain ⟨col, _, rfl⟩ := List.mem_map.mp hmem
        exact ⟨row * cols + col, rfl⟩
      · exact h3 p hmem

theorem widthBounds (images : List Img) (cols rows : ℕ)
    (hlen : images.length = cols * rows) (hr : 1 ≤ rows) :
    ∀ col ∈ List.range cols, col < images.length ∧
      ∀ row ∈ List.range' 1 (rows - 1), row * cols + col < images.length := by
  intro col hcol
  have hc : col < cols := List.mem_range.mp hcol
  constructor
  · rw [hlen]
    exact Nat.lt_of_lt_of_le hc (Nat.le_mul_of_pos_right cols hr)
  · intro row hrow
    obtain ⟨h1, h2⟩ := List.mem_range'_1.mp hrow
    rw [hlen, mul_comm cols rows]
    exact idx_lt (by omega) hc

theorem heightBounds (images : List Img) (cols rows : ℕ)
    (hlen : images.length = cols * rows) (hc : 1 ≤ cols) :
    ∀ row ∈ List.range rows, row * cols < images.length ∧
      ∀ col ∈ List.range' 1 (cols - 1), row * cols + col < images.length := by
  intro row hrow
  have hr : row < rows := List.mem_range.mp hrow
  constructor
  · rw [hlen, mul_comm cols rows]
    have : row * cols + 0 < rows * cols := idx_lt hr (by omega)
    omega
  · intro col hcol
    obtain ⟨h1, h2⟩ := List.mem_range'_1.mp hcol
    rw [hlen, mul_comm cols rows]
    exact idx_lt hr (by omega)

theorem pasteBounds (images : List Img) (cols rows : ℕ)
    (hlen : images.length = cols * rows) (hc : 1 ≤ cols) :
    ∀ row ∈ List.range rows, row * cols < images.length ∧
      ∀ col ∈ List.range cols, row * cols + col < images.length := by
  intro row hrow
  have hr : row < rows := List.mem_range.mp hrow
  constructor
  · rw [hlen, mul_comm cols rows]
    have : row * cols + 0 < rows * cols := idx_lt hr (by omega)
    omega
  · intro col hcol
    rw [hlen, mul_comm cols rows]
    exact idx_lt hr (List.mem_range.mp hcol)

theorem tile_images_len_err (images : List Img) (cols rows : ℕ)
    (params : TileParams) (hne : images.length ≠ cols * rows) :
    tile_images images (cols, rows) params =
      Except.error (TileError.dimensionMismatch images.length cols rows) := by
  simp only [tile_images]
  rw [if_pos hne]

theorem tile_images_some_eq (images : List Img) (cols rows : ℕ)
    (hs vs hm vm tw th : ℤ) (hlen : images.length = cols * rows) :
    tile_images images (cols, rows) ⟨some (tw, th), (hs, vs), (hm, vm)⟩ =
      (match pasteRows images cols (some (tw, th)) (List.range rows) with
       | Except.error e => Except.error e
       | Except.ok ps => Except.ok ⟨(tw * cols + hs * ((cols : ℤ) - 1) + hm * 2,
           th * rows + vs * ((rows : ℤ) - 1) + vm * 2), ps⟩) := by
  simp only [tile_images]
  rw [if_neg (not_not_intro hlen)]

theorem tile_images_none_eq (images : List Img) (cols rows : ℕ)
    (hs vs hm vm : ℤ) (hlen : images.length = cols * rows) :
    tile_images images (cols, rows) ⟨none, (hs, vs), (hm, vm)⟩ =
      (match checkWidthCols images cols rows 0 (List.range cols) with
       | Except.error e => Except.error e
       | Except.ok sumW =>
         match checkHeightRows images cols rows 0 (List.range rows) with
         | Except.error e => Except.error e
         | Except.ok sumH =>
           match pasteRows images cols none (List.range rows) with
           | Except.error e => Except.error e
           | Except.ok ps => Except.ok ⟨(sumW + hs * ((cols : ℤ) - 1) + hm * 2,
               sumH + vs * ((rows : ℤ) - 1) + vm * 2), ps⟩) := by
  simp only [tile_images]
  rw [if_neg (not_not_intro hlen)]

/-- C8: whenever tile_images succeeds, the canvas width is the sum of
the per-column reference widths (or cols tileWidth when a tile size is
forced) plus (cols - 1) horizontal spacings plus twice the horizontal
margin, and the height is the analogous sum over per-row reference
heights. -/
theorem tile_images_canvas (images : List Img) (cols rows : ℕ)
    (params : TileParams) (res : TileResult)
    (h : tile_images images (cols, rows) params = Except.ok res) :
    (∀ tw th : ℤ, params.tile_size = some (tw, th) →
      res.canvas = (tw * cols + params.tile_spacing.1 * ((cols : ℤ) - 1) +
          params.margins.1 * 2,
        th * rows + params.tile_spacing.2 * ((rows : ℤ) - 1) +
          params.margins.2 * 2)) ∧
    (params.tile_size = none →
      res.canvas = (((List.range cols).map
            (fun col => (images.getD col (0, 0)).1)).sum +
          params.tile_spacing.1 * ((cols : ℤ) - 1) + params.margins.1 * 2,
        ((List.range rows).map
            (fun row => (images.getD (row * cols) (0, 0)).2)).sum +
          params.tile_spacing.2 * ((rows : ℤ) - 1) + params.margins.2 * 2)) := by
  obtain ⟨ts, sp, mg⟩ := params
  obtain ⟨hs, vs⟩ := sp
  obtain ⟨hm, vm⟩ := mg
  have hlen : images.length = cols * rows := by
    by_contra hne
    rw [tile_images_len_err images cols rows _ hne] at h
    exact absurd h (by simp)
  rcases ts with _ | ⟨tw, th⟩
  · constructor
    · intro tw th habs
      exact absurd habs (by simp)
    · intro _
      rw [tile_images_none_eq images cols rows hs vs hm vm hlen] at h
      rcases hw : checkWidthCols images cols rows 0 (List.range cols) with e | sumW
      · rw [hw] at h
        exact absurd h (by simp)
      · rw [hw] at h
        simp only [] at h
        rcases hh : checkHeightRows images cols rows 0 (List.range rows) with e | sumH
        · rw [hh] at h
          exact absurd h (by simp)
        · rw [hh] at h
          simp only [] at h
          rcases hp : pasteRows images cols none (List.range rows) with e | ps
          · rw [hp] at h
            exact absurd h (by simp)
          · rw [hp] at h
            simp only [Except.ok.injEq] at h
            have hvw := checkWidthCols_ok_val images cols rows (List.range cols)
              0 sumW hw
            have hvh := checkHeightRows_ok_val images cols rows (List.range rows)
              0 sumH hh
            rw [← h]
            simp only []
            rw [hvw, hvh, zero_add, zero_add]
  · constructor
    · intro tw' th' heq
      simp only [Option.some.injEq, Prod.mk.injEq] at heq
      obtain ⟨rfl, rfl⟩ := heq
      rw [tile_images_some_eq images cols rows hs vs hm vm _ _ hlen] at h
      rcases hp : pasteRows images cols (some (tw, th)) (List.range rows)
        with e | ps
      · rw [hp] at h
        exact absurd h (by simp)
      · rw [hp] at h
        simp only [Except.ok.injEq] at h
        rw [← h]
    · intro habs
      exact absurd habs (by simp)

/-- Witness for tile_images_canvas: a 2 by 2 grid of four 50 by 50
images with zero spacing and margins composes to exactly a 100 by 100
canvas. -/
theorem tile_images_canvas_witness :
    ∃ res : TileResult,
      tile_images [(50, 50), (50, 50), (50, 50), (50, 50)] (2, 2)
        ⟨none, (0, 0), (0, 0)⟩ = Except.ok res ∧
      res.canvas = ((100 : ℤ), (100 : ℤ)) := by
  have h : tile_images [(50, 50), (50, 50), (50, 50), (50, 50)] (2, 2)
      ⟨none, (0, 0), (0, 0)⟩ =
      Except.ok ⟨((100 : ℤ), (100 : ℤ)),
        [(50, 50), (50, 50), (50, 50), (50, 50)]⟩ := by decide
  have h2 := (tile_images_canvas [(50, 50), (50, 50), (50, 50), (50, 50)] 2 2
    ⟨none, (0, 0), (0, 0)⟩ _ h).2 rfl
  exact ⟨_, h, by rw [h2]; decide⟩

theorem mismatch_iff (images : List Img) (cols rows : ℕ) (hc : 1 ≤ cols)
    (hr : 1 ≤ rows) :
    ((∃ row, row < rows ∧ ∃ col, col < cols ∧
      ((images.getD (row * cols + col) (0, 0)).1 ≠ (images.getD col (0, 0)).1 ∨
       (images.getD (row * cols + col) (0, 0)).2 ≠
         (images.getD (row * cols) (0, 0)).2)) ↔
     (¬ (∀ col ∈ List.range cols, ∀ row ∈ List.range' 1 (rows - 1),
          (images.getD (row * cols + col) (0, 0)).1 =
            (images.getD col (0, 0)).1) ∨
      ¬ (∀ row ∈ List.range rows, ∀ col ∈ List.range' 1 (cols - 1),
          (images.getD (row * cols + col) (0, 0)).2 =
            (images.getD (row * cols) (0, 0)).2))) := by
  constructor
  · rintro ⟨row, hrow, col, hcol, hor | hor⟩
    · rcases Nat.eq_zero_or_pos row with rfl | hpos
      · simp only [Nat.zero_mul, Nat.zero_add] at hor
        exact absurd rfl hor
      · left
        intro hall
        exact hor (hall col (List.mem_range.mpr hcol) row
          (List.mem_range'_1.mpr ⟨hpos, by omega⟩))
    · rcases Nat.eq_zero_or_pos col with rfl | hpos
      · simp only [Nat.add_zero] at hor
        exact absurd rfl hor
      · right
        intro hall
        exact hor (hall row (List.mem_range.mpr hrow) col
          (List.mem_range'_1.mpr ⟨hpos, by omega⟩))
  · rintro (hno | hno)
    · push_neg at hno
      obtain ⟨col, hcol, row, hrow, hne⟩ := hno
      obtain ⟨h1, h2⟩ := List.mem_range'_1.mp hrow
      exact ⟨row, by omega, col, List.mem_range.mp hcol, Or.inl hne⟩
    · push_neg at hno
      obtain ⟨row, hrow, col, hcol, hne⟩ := hno
      obtain ⟨h1, h2⟩ := List.mem_range'_1.mp hcol
      exact ⟨row, List.mem_range.mp hrow, col, by omega, Or.inr hne⟩

/-- C7 counterexample: on the degenerate grid of 2 columns and 0 rows
with an empty image list (which satisfies the length precondition
0 = 2 times 0) and no forced tile size, tile_images raises an
IndexError while reading the column reference images, even though there
is no image at all and hence no size mismatch. -/
theorem tile_images_cex :
    tile_images [] (2, 0) ⟨none, (0, 0), (0, 0)⟩ =
      Except.error TileError.indexError ∧
    ∀ i : ℕ, ¬ i < ([] : List Img).length := by
  constructor
  · decide
  · intro i
    simp

/-- C7 amended: for a grid with at least one row and one column,
tile_images errors with a dimension mismatch whenever the image count
differs from cols times rows; with matching count and no tile_size it
errors exactly when some image's width differs from the row-0 image of
its column or some image's height differs from the column-0 image of
its row, and any such error names the offending flat index, its size,
and the reference index and size it disagrees with; supplying tile_size
suppresses the size check entirely and every image is pasted at the
forced tile size. -/
theorem tile_images_errors (images : List Img) (cols rows : ℕ)
    (params : TileParams) (hc : 1 ≤ cols) (hr : 1 ≤ rows) :
    (images.length ≠ cols * rows →
      tile_images images (cols, rows) params =
        Except.error (TileError.dimensionMismatch images.length cols rows)) ∧
    (images.length = cols * rows → params.tile_size = none →
      ((∃ e, tile_images images (cols, rows) params = Except.error e) ↔
        ∃ row, row < rows ∧ ∃ col, col < cols ∧
          ((images.getD (row * cols + col) (0, 0)).1 ≠
            (images.getD col (0, 0)).1 ∨
           (images.getD (row * cols + col) (0, 0)).2 ≠
            (images.getD (row * cols) (0, 0)).2))) ∧
    (images.length = cols * rows → params.tile_size = none →
      ∀ e, tile_images images (cols, rows) params = Except.error e →
        (∃ index row col, row < rows ∧ col < cols ∧ index = row * cols + col ∧
          e = TileError.inconsistentWidth index row col
            (images.getD index (0, 0)).1 (images.getD index (0, 0)).2 col
            (images.getD col (0, 0)).1 (images.getD col (0, 0)).2 ∧
          (images.getD index (0, 0)).1 ≠ (images.getD col (0, 0)).1) ∨
        (∃ index row col, row < rows ∧ col < cols ∧ index = row * cols + col ∧
          e = TileError.inconsistentHeight index row col
            (images.getD index (0, 0)).1 (images.getD index (0, 0)).2
            (row * cols) (images.getD (row * cols) (0, 0)).1
            (images.getD (row * cols) (0, 0)).2 ∧
          (images.getD index (0, 0)).2 ≠ (images.getD (row * cols) (0, 0)).2)) ∧
    (images.length = cols * rows → ∀ tw th : ℤ, params.tile_size = some (tw, th) →
      ∃ res, tile_images images (cols, rows) params = Except.ok res ∧
        res.pasted.length = images.length ∧
        ∀ p ∈ res.pasted, p = ((tw, th) : Img)) := by
  obtain ⟨ts, sp, mg⟩ := params
  obtain ⟨hs, vs⟩ := sp
  obtain ⟨hm, vm⟩ := mg
  refine ⟨fun hne => tile_images_len_err images cols rows _ hne, ?_, ?_, ?_⟩
  · intro hlen hts
    have hts' : ts = none := hts
    subst hts'
    have hwb := widthBounds images cols rows hlen hr
    have hhb := heightBounds images cols rows hlen hc
    have hpb := pasteBounds images cols rows hlen hc
    rw [mismatch_iff images cols rows hc hr]
    constructor
    · rintro ⟨e, he⟩
      rw [tile_images_none_eq images cols rows hs vs hm vm hlen] at he
      rcases hw : checkWidthCols images cols rows 0 (List.range cols) with ew | sumW
      · left
        intro hall
        have hok := (checkWidthCols_ok_iff images cols rows (List.range cols)
          0 hwb).mpr hall
        rw [hw] at hok
        obtain ⟨v, hv⟩ := hok
        exact absurd hv (by simp)
      · rw [hw] at he
        simp only [] at he
        rcases hh : checkHeightRows images cols rows 0 (List.range rows)
          with eh | sumH
        · right
          intro hall
          have hok := (checkHeightRows_ok_iff images cols rows (List.range rows)
            0 hhb).mpr hall
          rw [hh] at hok
          obtain ⟨v, hv⟩ := hok
          exact absurd hv (by simp)
        · rw [hh] at he
          simp only [] at he
          obtain ⟨ps, hps, _, _⟩ := pasteRows_ok images cols none
            (List.range rows) hpb
          rw [hps] at he
          exact absurd he (by simp)
    · intro hno
      rcases hres : tile_images images (cols, rows)
          ⟨none, (hs, vs), (hm, vm)⟩ with e | res
      · exact ⟨e, rfl⟩
      · exfalso
        rw [tile_images_none_eq images cols rows hs vs hm vm hlen] at hres
        rcases hw : checkWidthCols images cols rows 0 (List.range cols)
          with ew | sumW
        · rw [hw] at hres
          exact absurd hres (by simp)
        · rw [hw] at hres
          simp only [] at hres
          rcases hh : checkHeightRows images cols rows 0 (List.range rows)
            with eh | sumH
          · rw [hh] at hres
            exact absurd hres (by simp)
          · have hA := (checkWidthCols_ok_iff images cols rows (List.range cols)
              0 hwb).mp ⟨sumW, hw⟩
            have hB := (checkHeightRows_ok_iff images cols rows (List.range rows)
              0 hhb).mp ⟨sumH, hh⟩
            rcases hno with hno | hno
            · exact hno hA
            · exact hno hB
  · intro hlen hts e he
    have hts' : ts = none := hts
    subst hts'
    have hwb := widthBounds images cols rows hlen hr
    have hhb := heightBounds images cols rows hlen hc
    have hpb := pasteBounds images cols rows hlen hc
    rw [tile_images_none_eq images cols rows hs vs hm vm hlen] at he
    rcases hw : checkWidthCols images cols rows 0 (List.range cols) with ew | sumW
    · rw [hw] at he
      simp only [Except.error.injEq] at he
      obtain ⟨col, hcol, row, hrow, heq, hne⟩ :=
        checkWidthCols_err images cols rows (List.range cols) 0 ew hwb hw
      obtain ⟨h1, h2⟩ := List.mem_range'_1.mp hrow
      left
      exact ⟨row * cols + col, row, col, by omega, List.mem_range.mp hcol, rfl,
        by rw [← he, heq], hne⟩
    · rw [hw] at he
      simp only [] at he
      rcases hh : checkHeightRows images cols rows 0 (List.range rows)
        with eh | sumH
      · rw [hh] at he
        simp only [Except.error.injEq] at he
        obtain ⟨row, hrow, col, hcol, heq, hne⟩ :=
          checkHeightRows_err images cols rows (List.range rows) 0 eh hhb hh
        obtain ⟨h1, h2⟩ := List.mem_range'_1.mp hcol
        right
        exact ⟨row * cols + col, row, col, List.mem_range.mp hrow, by omega, rfl,
          by rw [← he, heq], hne⟩
      · rw [hh] at he
        simp only [] at he
        obtain ⟨ps, hps, _, _⟩ := pasteRows_ok images cols none
          (List.range rows) hpb
        rw [hps] at he
        exact absurd he (by simp)
  · intro hlen tw th hts
    have hts' : ts = some (tw, th) := hts
    subst hts'
    have hpb := pasteBounds images cols rows hlen hc
    obtain ⟨ps, hps, hlenps, hmem⟩ := pasteRows_ok images cols (some (tw, th))
      (List.range rows) hpb
    rw [tile_images_some_eq images cols rows hs vs hm vm tw th hlen]
    rw [hps]
    refine ⟨_, rfl, ?_, ?_⟩
    · simp only [hlenps, List.length_range, hlen]
      ring
    · intro p hp
      obtain ⟨i, hi⟩ := hmem p hp
      rw [hi]
      rfl

/-- Witness for tile_images_errors: a wrong image count yields the
dimension-mismatch error, and a 2 by 2 grid with one 40-wide image
among 50-wide ones does error. -/
theorem tile_images_errors_witness :
    tile_images [(50, 50)] (2, 2) ⟨none, (0, 0), (0, 0)⟩ =
      Except.error (TileError.dimensionMismatch 1 2 2) ∧
    ∃ e, tile_images [(50, 50), (50, 50), (40, 50), (50, 50)] (2, 2)
      ⟨none, (0, 0), (0, 0)⟩ = Except.error e := by
  constructor
  · exact (tile_images_errors [(50, 50)] 2 2 ⟨none, (0, 0), (0, 0)⟩
      (by norm_num) (by norm_num)).1 (by norm_num)
  · exact ((tile_images_errors [(50, 50), (50, 50), (40, 50), (50, 50)] 2 2
      ⟨none, (0, 0), (0, 0)⟩ (by norm_num) (by norm_num)).2.1 (by norm_num)
      rfl).mpr ⟨1, by norm_num, 0, by norm_num, Or.inl (by decide)⟩

end Storyboard
